import Mathlib

/-!
Shallow embedding of the QuadClaude core (Pane Process Supervisor and
Output/History Pipeline) and proofs about it.

Sources embedded here:
- `src/main/pty.ts` (`PtyManager`): `createPty`, `killPty`, `write` (cd
  heuristic), `getCwd`, `getGitStatus`.
- `src/main/history.ts` (`HistoryManager`): `appendExchange`,
  `formatExchange`, `flush`, `isNewSession`, `getSessionHeader`, `search`.
- `src/main/index.ts`: `stripAnsi`.

Conventions of the embedding:
- JavaScript strings are Lean `String`/`List Char`.
- `Map` objects become association lists with JS `Map.set`/`Map.delete`
  semantics (`mapSet`, key filtering).
- Every external effect (spawn success, OS probe output, `execSync` result,
  file existence / mtime, write success) is an explicit input; a thrown
  exception of an external call is `Option.none` / a `Bool` flag.
- Disk writes are reified as a list of `DiskEff` values so that claims about
  "no disk write happens" are statements about that list.
-/

namespace QuadClaude

/-! ### JavaScript character classes (ECMA-262 `\s`, line terminators, `.`) -/

/-- ECMA-262 whitespace class `\s`: WhiteSpace (tab, VT, FF, space, NBSP,
BOM, Zs category) plus LineTerminator (LF, CR, LS, PS). -/
def isJsWs (c : Char) : Bool :=
  c == ' ' || c == '\t' || c == '\n' || c == '\r' || c == '\x0b' || c == '\x0c' ||
  c == Char.ofNat 0xa0 || c == Char.ofNat 0x1680 ||
  (decide (0x2000 ≤ c.toNat) && decide (c.toNat ≤ 0x200a)) ||
  c == Char.ofNat 0x2028 || c == Char.ofNat 0x2029 || c == Char.ofNat 0x202f ||
  c == Char.ofNat 0x205f || c == Char.ofNat 0x3000 || c == Char.ofNat 0xfeff

/-- ECMA-262 line terminators, the characters `.` does not match. -/
def isLineTermJs (c : Char) : Bool :=
  c == '\n' || c == '\r' || c == Char.ofNat 0x2028 || c == Char.ofNat 0x2029

/-- Model of JS `String.prototype.trim` on a character list: drop ECMA-262 whitespace
from both ends. -/
def jsTrim (l : List Char) : List Char :=
  ((l.dropWhile isJsWs).reverse.dropWhile isJsWs).reverse

/-- Model of JS `String.prototype.trim`. -/
def jsTrimS (s : String) : String :=
  String.mk (jsTrim s.data)

/-- Model of JS `String.prototype.startsWith` (kernel-reducible form). -/
def strStarts (s pre : String) : Bool :=
  pre.data.isPrefixOf s.data

/-- Model of JS `String.prototype.endsWith` (kernel-reducible form). -/
def strEnds (s suf : String) : Bool :=
  suf.data.isSuffixOf s.data

/-- Model of JS `String.prototype.slice(n)` on strings (kernel-reducible form). -/
def strDrop (s : String) (n : Nat) : String :=
  String.mk (s.data.drop n)

/-- Model of JS split on a newline, which keeps empty pieces. -/
def splitNlAux : List Char → List Char → List String
  | [], acc => [String.mk acc.reverse]
  | c :: cs, acc =>
    if c == '\n' then String.mk acc.reverse :: splitNlAux cs []
    else splitNlAux cs (c :: acc)

/-- Model of JS `String.prototype.split` at newlines. -/
def splitNl (s : String) : List String :=
  splitNlAux s.data []

/-- Model of JS `Array.prototype.join` with a newline separator. -/
def joinNl (l : List String) : String :=
  String.mk (List.intercalate ['\n'] (l.map String.data))

/-! ### `stripAnsi` (src/main/index.ts)

The source is a chain of seven `String.replace(/…/g, '')` calls followed by
removal of carriage returns.  Each `replace(re, '')` with a global regex is a
single left-to-right scan: at each position the regex is tried; on a match the
matched (non-empty) prefix is dropped and scanning resumes after it, otherwise
one character is kept.  All seven regexes begin with the ESC byte and are
deterministic (their quantifiers never need backtracking to decide a match, as
argued at each matcher below), so each pass is modelled as `runPassF` with a
pattern-specific matcher.  A matcher takes the text at the current position
and returns the suffix remaining after the match, or `none`. -/

/-- The ESC byte 0x1B. -/
def escChar : Char := '\x1B'

/-- One `replace(re, '')` scan, fuelled for structural recursion; fuel equal
to the length of the list is always sufficient because every match consumes at
least one character. -/
def runPassF (m : List Char → Option (List Char)) : Nat → List Char → List Char
  | 0, l => l
  | _ + 1, [] => []
  | fuel + 1, c :: cs =>
    match m (c :: cs) with
    | some rest => runPassF m fuel rest
    | none => c :: runPassF m fuel cs

/-- One full `replace(re, '')` pass over the text. -/
def applyPass (m : List Char → Option (List Char)) (l : List Char) : List Char :=
  runPassF m l.length l

/-- After `ESC [` and the optional `?`: greedily consume `[0-9;]*`, then
require one final `[a-zA-Z]`.  The parameter class and the final class are
disjoint, so the greedy scan never backtracks. -/
def csiTail : List Char → Option (List Char)
  | [] => none
  | c :: cs =>
    if c.isDigit || c == ';' then csiTail cs
    else if c.isAlpha then some cs
    else none

/-- Matcher for `/\x1B\[\??[0-9;]*[a-zA-Z]/` (CSI sequences).  If the char
after `ESC [` is `?` it is consumed by `\??`; declining it instead can never
succeed because `?` is neither a parameter nor a final byte. -/
def csiMatch : List Char → Option (List Char)
  | '\x1b' :: '[' :: '?' :: cs => csiTail cs
  | '\x1b' :: '[' :: cs => csiTail cs
  | _ => none

/-- After `ESC [ ?`: greedily consume `[0-9;]*`, then require `h` or `l`. -/
def csiTail2 : List Char → Option (List Char)
  | [] => none
  | c :: cs =>
    if c.isDigit || c == ';' then csiTail2 cs
    else if c == 'h' || c == 'l' then some cs
    else none

/-- Matcher for `/\x1B\[\?[0-9;]*[hl]/` (set/reset mode sequences). -/
def modeMatch : List Char → Option (List Char)
  | '\x1b' :: '[' :: '?' :: cs => csiTail2 cs
  | _ => none

/-- After `ESC ]`: lazy `.*?` up to the first BEL.  JS `.` does not match
line terminators, so a line terminator before the first BEL makes the whole
match fail. -/
def oscBelTail : List Char → Option (List Char)
  | [] => none
  | c :: cs =>
    if c == '\x07' then some cs
    else if isLineTermJs c then none
    else oscBelTail cs

/-- Matcher for `/\x1B\].*?\x07/` (OSC sequences terminated by BEL). -/
def oscBelMatch : List Char → Option (List Char)
  | '\x1b' :: ']' :: cs => oscBelTail cs
  | _ => none

/-- Matcher for `/\x1B\][^\x07]*(?:\x1B\\)?/` (OSC with ST terminator).  The
greedy `[^\x07]*` consumes every non-BEL character (the optional `ESC \` is
subsumed by it and then matches empty), so the match is `ESC ]` plus
everything up to but excluding the next BEL or the end of the text. -/
def oscStMatch : List Char → Option (List Char)
  | '\x1b' :: ']' :: cs => some (cs.dropWhile (fun c => !(c == '\x07')))
  | _ => none

/-- Matcher for `/\x1B[()][AB012]/` (character set sequences). -/
def charsetMatch : List Char → Option (List Char)
  | '\x1b' :: p :: x :: cs =>
    if (p == '(' || p == ')') &&
        (x == 'A' || x == 'B' || x == '0' || x == '1' || x == '2') then some cs
    else none
  | _ => none

/-- After `ESC`: greedily consume intermediate bytes `[\x20-\x2F]*`, then
require one final byte `[\x40-\x7E]`.  The two ranges are disjoint, so the
greedy scan never backtracks. -/
def escSeqTail : List Char → Option (List Char)
  | [] => none
  | c :: cs =>
    if decide (0x20 ≤ c.toNat) && decide (c.toNat ≤ 0x2f) then escSeqTail cs
    else if decide (0x40 ≤ c.toNat) && decide (c.toNat ≤ 0x7e) then some cs
    else none

/-- Matcher for `/\x1B[\x20-\x2F]*[\x40-\x7E]/` (other escape sequences). -/
def escSeqMatch : List Char → Option (List Char)
  | '\x1b' :: cs => escSeqTail cs
  | _ => none

/-- Matcher for `/\x1B[=>]/` (keypad mode sequences). -/
def keypadMatch : List Char → Option (List Char)
  | '\x1b' :: c :: cs => if c == '=' || c == '>' then some cs else none
  | _ => none

/-- Model of `stripAnsi` on a character list: the seven regex-removal passes in source
order, then removal of every carriage return (`replace(/\r/g, '')`). -/
def stripAnsiL (l : List Char) : List Char :=
  (applyPass keypadMatch
    (applyPass escSeqMatch
      (applyPass charsetMatch
        (applyPass oscStMatch
          (applyPass oscBelMatch
            (applyPass modeMatch
              (applyPass csiMatch l))))))).filter (fun c => !(c == '\r'))

/-- Model of `stripAnsi` from src/main/index.ts. -/
def stripAnsi (s : String) : String :=
  String.mk (stripAnsiL s.data)

/-! ### `PtyManager` (src/main/pty.ts)

State model: the `ptys` map is an association list from pane id to
`PtyInstance`; processes spawned by `createPty` get fresh identities from a
counter, and `killed` records every process id on which `pty.kill()` was
invoked, so that "live session" is expressible.  External effects are
explicit inputs: whether `pty.spawn` succeeds (`spawnOk`), the platform, and
the raw output of the cwd probe (`none` models a thrown `execSync`). -/

/-- Value stored in the `ptys` map: the pty handle (identified by `pid`) and
the tracked working directory `cwd`. -/
structure PtyInstance where
  pid : Nat
  cwd : String
deriving DecidableEq, Repr

/-- The `PtyManager` state. -/
structure PtyState where
  ptys : List (Nat × PtyInstance)
  nextPid : Nat
  killed : List Nat
deriving DecidableEq, Repr

/-- Fresh `PtyManager` (constructor: empty map). -/
def initPtyState : PtyState := ⟨[], 0, []⟩

/-- Constant modelling `os.homedir()`, fixed for the process. -/
def homeDir : String := "/home/user"

/-- Model of JS `Map.prototype.get`. -/
def lookupPane (s : PtyState) (p : Nat) : Option PtyInstance :=
  (s.ptys.find? (fun e => e.1 == p)).map Prod.snd

/-- Model of JS `Map.prototype.set`: replace the value at an existing key in place,
otherwise append the new entry. -/
def mapSet (l : List (Nat × PtyInstance)) (k : Nat) (v : PtyInstance) :
    List (Nat × PtyInstance) :=
  if l.any (fun e => e.1 == k) then
    l.map (fun e => if e.1 == k then (k, v) else e)
  else l ++ [(k, v)]

/-- Model of `killPty(paneId)`: if a session exists, call `kill()` on its pty and
delete the map entry; otherwise a no-op. -/
def killPty (s : PtyState) (p : Nat) : PtyState :=
  match lookupPane s p with
  | none => s
  | some inst =>
    { s with
      killed := inst.pid :: s.killed
      ptys := s.ptys.filter (fun e => !(e.1 == p)) }

/-- Model of `createPty(paneId, cwd?)`: kill any existing pty for the pane, resolve
the working directory to `cwd` or the home directory, then spawn.  On spawn
failure (`spawnOk = false`) return `false` with no session registered. -/
def createPty (s : PtyState) (p : Nat) (cwd : Option String) (spawnOk : Bool) :
    PtyState × Bool :=
  let s1 := killPty s p
  let workingDir := cwd.getD homeDir
  if spawnOk then
    ({ s1 with
        ptys := mapSet s1.ptys p ⟨s1.nextPid, workingDir⟩
        nextPid := s1.nextPid + 1 }, true)
  else (s1, false)

/-- Number of registered sessions for pane `p` whose process has not been
killed. -/
def liveCount (s : PtyState) (p : Nat) : Nat :=
  (s.ptys.filter (fun e => e.1 == p && !(decide (e.2.pid ∈ s.killed)))).length

/-- Well-formedness of the `PtyManager` state: map keys are distinct and
every process id the state has handed out (registered or killed) is below
the counter. -/
def PtyWF (s : PtyState) : Prop :=
  (s.ptys.map Prod.fst).Nodup ∧
  (∀ e ∈ s.ptys, e.2.pid < s.nextPid) ∧
  (∀ k ∈ s.killed, k < s.nextPid)

/-! The `cd` heuristic of `write` (src/main/pty.ts lines 118-142). -/

/-- Model of the trailing-newline strip in `write`: remove one maximal trailing run of CR/LF
characters. -/
def stripTrailingNl (l : List Char) : List Char :=
  (l.reverse.dropWhile (fun c => c == '\r' || c == '\n')).reverse

/-- Capture group of `cleanData.match(/^cd\s+(.+)/)`.  After the literal
`cd`, the greedy `\s+` takes the maximal whitespace run; if any character
follows the run it is non-whitespace, hence not a line terminator, and `(.+)`
captures from it to the end of the line.  If the whitespace run reaches the
end of the text, backtracking hands the last non-line-terminator character of
the run (if any beyond the first position) to `(.+)`. -/
def cdCapture (l : List Char) : Option (List Char) :=
  match l with
  | 'c' :: 'd' :: rest =>
    let w := rest.takeWhile isJsWs
    if w.isEmpty then none
    else
      let r := rest.dropWhile isJsWs
      if r.isEmpty then
        match (w.drop 1).reverse.find? (fun c => !(isLineTermJs c)) with
        | some c => some [c]
        | none => none
      else some (r.takeWhile (fun c => !(isLineTermJs c)))
  | _ => none

/-- Cleanup of the captured target: trim, strip quote characters, strip CR
and LF (the two replace calls applied to the capture in `write`). -/
def newDirOf (cap : List Char) : String :=
  String.mk (((jsTrim cap).filter
    (fun c => !(c == Char.ofNat 0x27 || c == Char.ofNat 0x22))).filter
    (fun c => !(c == '\r' || c == '\n')))

/-- Node `path.join` for the separator-joining cases exercised here (the
arguments never contain `.`/`..` segments, where Node would also
normalize). -/
def pathJoin (a b : String) : String :=
  if b == "" then a
  else if a == "" then b
  else if strEnds a "/" then a ++ b
  else a ++ "/" ++ b

/-- Resolution of the captured `cd` target against the current tracked value:
absolute paths replace it, `~` resolves to the home directory, `~`-prefixed
paths join the remainder after dropping two characters, anything else joins
relative to the tracked value. -/
def resolveCd (cwd : String) (newDir : String) : String :=
  if strStarts newDir "/" then newDir
  else if newDir == "~" then homeDir
  else if strStarts newDir "~" then pathJoin homeDir (strDrop newDir 2)
  else pathJoin cwd newDir

/-- The tracked-cwd update a single `write(paneId, data)` applies to a pane
whose tracked directory is `cwd`. -/
def cdApply (cwd : String) (data : String) : String :=
  match (cdCapture (stripTrailingNl data.data)).map newDirOf with
  | some nd => resolveCd cwd nd
  | none => cwd

/-- Model of `write(paneId, data)`: forwards the bytes to the pty (not part of the
state) and applies the `cd` tracking heuristic to the pane's entry. -/
def write (s : PtyState) (p : Nat) (data : String) : PtyState :=
  match lookupPane s p with
  | none => s
  | some inst =>
    { s with ptys := mapSet s.ptys p ⟨inst.pid, cdApply inst.cwd data⟩ }

/-! `getCwd` (src/main/pty.ts lines 151-188). -/

/-- Host platform, as reported by `os.platform()`. -/
inductive Platform
  | darwin
  | linux
  | other
deriving DecidableEq, Repr

/-- The accepted outcome of the cwd probe: on darwin the `lsof` pipeline's
trimmed output when it starts with `/`; on linux the trimmed `readlink`
output when non-empty; `none` when the probe threw, was rejected, or the
platform has no probe. -/
def probeAccept (plat : Platform) (probe : Option String) : Option String :=
  match plat, probe with
  | .darwin, some r =>
    let t := jsTrimS r
    if t == "" then none else if strStarts t "/" then some t else none
  | .linux, some r =>
    let t := jsTrimS r
    if t == "" then none else some t
  | _, _ => none

/-- Model of `getCwd(paneId)`: `null` when the pane has no session; otherwise probe
the OS for the authoritative working directory, overwrite the tracked value
on an accepted result, and return the (possibly refreshed) tracked value.
The catch block makes a thrown probe fall through to the tracked value. -/
def getCwd (plat : Platform) (probe : Option String) (s : PtyState) (p : Nat) :
    Option String × PtyState :=
  match lookupPane s p with
  | none => (none, s)
  | some inst =>
    match probeAccept plat probe with
    | some r => (some r, { s with ptys := mapSet s.ptys p ⟨inst.pid, r⟩ })
    | none => (some inst.cwd, s)

/-! ### `getGitStatus` (src/main/pty.ts lines 190-262)

Each `execSync` probe is an explicit input: `none` models a thrown call
(non-zero exit, timeout, missing directory), `some out` its stdout. -/

/-- The `GitStatus` shape from src/shared/types.ts: `isGitRepo` plus four
optional fields. -/
structure GitStatus where
  isGitRepo : Bool
  branch : Option String
  ahead : Option Int
  behind : Option Int
  dirty : Option Nat
deriving DecidableEq, Repr

/-- The `{ isGitRepo: false }` result. -/
def notGitRepo : GitStatus := ⟨false, none, none, none, none⟩

/-- Outcomes of the four `execSync` probes of one `getGitStatus` call. -/
structure GitProbes where
  workTree : Bool
  branch : Option String
  tracking : Option String
  status : Option String

/-- Model of JS `parseInt(str, 10) || 0`: skip leading whitespace, optional sign,
then leading decimal digits; no digits (including the `undefined` case,
passed as `""`) yields `NaN`, which `|| 0` turns into `0`. -/
def parseIntOr0 (s : String) : Int :=
  match s.data.dropWhile isJsWs with
  | '-' :: rest =>
    let ds := rest.takeWhile Char.isDigit
    if ds.isEmpty then 0
    else -(Int.ofNat (ds.foldl (fun n c => n * 10 + (c.toNat - 48)) 0))
  | '+' :: rest =>
    let ds := rest.takeWhile Char.isDigit
    if ds.isEmpty then 0
    else Int.ofNat (ds.foldl (fun n c => n * 10 + (c.toNat - 48)) 0)
  | t =>
    let ds := t.takeWhile Char.isDigit
    if ds.isEmpty then 0
    else Int.ofNat (ds.foldl (fun n c => n * 10 + (c.toNat - 48)) 0)

/-- Splitting on whitespace runs.  The source applies `.split(/\s+/)` to an
already-trimmed string, on which JS split yields the whitespace-separated
words (and `[""]` for the empty string, whose single element parses to 0 just
as a missing element would). -/
def wordsAux : List Char → List Char → List (List Char)
  | [], acc => if acc.isEmpty then [] else [acc.reverse]
  | c :: cs, acc =>
    if isJsWs c then
      if acc.isEmpty then wordsAux cs [] else acc.reverse :: wordsAux cs []
    else wordsAux cs (c :: acc)

/-- Words of the trimmed `git rev-list --left-right --count` output. -/
def trackingWords (t : String) : List String :=
  (wordsAux (jsTrim t.data) []).map String.mk

/-- The dirty count: `status.split('\n').filter(line => line.trim().length >
0).length`. -/
def dirtyCount (st : String) : Nat :=
  ((splitNl st).filter (fun l => !(jsTrimS l == ""))).length

/-- Model of `getGitStatus(paneId)`: `null` when the pane has no session.  Otherwise
`getCwd` refreshes the tracked directory, step 1 checks for a work tree and
any failure short-circuits to `{isGitRepo: false}`; steps 2-4 each have their
own catch: a failed branch probe yields `HEAD`, a failed tracking probe
yields 0/0, a failed status probe yields dirty 0.  Nothing in steps 2-4 can
throw past its own catch, so the function never throws and the outer catch is
unreachable. -/
def getGitStatus (plat : Platform) (cwdProbe : Option String) (g : GitProbes)
    (s : PtyState) (p : Nat) : Option GitStatus × PtyState :=
  match lookupPane s p with
  | none => (none, s)
  | some _ =>
    let s1 := (getCwd plat cwdProbe s p).2
    if !g.workTree then (some notGitRepo, s1)
    else
      let branch := match g.branch with
        | some b => jsTrimS b
        | none => "HEAD"
      let ahead := match g.tracking with
        | some t => parseIntOr0 ((trackingWords t).getD 0 "")
        | none => 0
      let behind := match g.tracking with
        | some t => parseIntOr0 ((trackingWords t).getD 1 "")
        | none => 0
      let dirty := match g.status with
        | some st => dirtyCount st
        | none => 0
      (some ⟨true, some branch, some ahead, some behind, some dirty⟩, s1)

/-! ### `HistoryManager` (src/main/history.ts)

The in-memory state is the per-project `writeBuffers` map (association list,
JS `Map` semantics).  Disk writes performed by `flush` are reified as
`DiskEff` values; the filesystem facts `flush` consults (existence and age of
the day file) and the success of each write are inputs, per project, via
`FlushEnvEntry`.  Locale-dependent strings (`toLocaleTimeString`,
`toLocaleDateString`) are inputs, since they depend on the wall clock and
locale, not on the code under verification. -/

/-- Exchange type tag. -/
inductive ExType
  | input
  | output
deriving DecidableEq, Repr

/-- The markdown label for an exchange type. -/
def typeLabel : ExType → String
  | .input => "**Input:**"
  | .output => "**Output:**"

/-- The string interpolation of an ExType value (the strings `input` and `output`). -/
def typeName : ExType → String
  | .input => "input"
  | .output => "output"

/-- Model of `formatExchange(timestamp, paneId, type, content)`: one markdown record.
`time` is the locale-rendered time label of the timestamp.  `escapedContent`
in the source is `content.trim()` - a trim, not an escape. -/
def formatExchange (time : String) (paneId : Nat) (ty : ExType)
    (content : String) : String :=
  "### [" ++ time ++ "] Terminal " ++ toString (paneId + 1) ++ " - " ++
    typeName ty ++ "\n" ++ typeLabel ty ++ "\n```\n" ++ jsTrimS content ++
    "\n```\n\n"

/-- The `HistoryManager` in-memory state: the per-project write buffers. -/
structure HistState where
  writeBuffers : List (String × List String)
deriving DecidableEq, Repr

/-- Fresh `HistoryManager` state. -/
def initHist : HistState := ⟨[]⟩

/-- Buffer push: `if (!map.has(k)) map.set(k, []); map.get(k)!.push(v)`. -/
def bufPush (l : List (String × List String)) (k : String) (v : String) :
    List (String × List String) :=
  if l.any (fun e => e.1 == k) then
    l.map (fun e => if e.1 == k then (e.1, e.2 ++ [v]) else e)
  else l ++ [(k, [v])]

/-- The buffered entries of one project. -/
def bufGet (s : HistState) (k : String) : Option (List String) :=
  (s.writeBuffers.find? (fun e => e.1 == k)).map Prod.snd

/-- Model of `appendExchange(projectId, paneId, type, content)`: drop the exchange for
falsy or `temp-`-prefixed project ids, otherwise format it and push it onto
the project's in-memory queue.  No disk access. -/
def appendExchange (s : HistState) (projectId : String) (paneId : Nat)
    (ty : ExType) (time : String) (content : String) : HistState :=
  if projectId == "" || strStarts projectId "temp-" then s
  else ⟨bufPush s.writeBuffers projectId (formatExchange time paneId ty content)⟩

/-- The 30-minute threshold of `isNewSession`, in milliseconds. -/
def thirtyMinutesMs : Int := 30 * 60 * 1000

/-- Model of `isNewSession(filePath)` with `age` the elapsed `now - mtime` in
milliseconds; `none` models a thrown `statSync`, which the catch turns into
`true`. -/
def isNewSession (age : Option Int) : Bool :=
  match age with
  | some a => decide (a > thirtyMinutesMs)
  | none => true

/-- Model of `getSessionHeader()`: the locale-rendered date and time of the flush
moment are inputs. -/
def getSessionHeader (dateStr timeStr : String) : String :=
  "\n---\n## Session: " ++ dateStr ++ " at " ++ timeStr ++ "\n\n"

/-- Filesystem facts and write outcomes `flush` encounters for one project:
whether the project history directory can be ensured, whether today's day
file exists, its age (`none` = `statSync` threw), and whether the append and
the index update succeed. -/
structure FlushEnvEntry where
  mkdirOk : Bool
  fileExists : Bool
  statAge : Option Int
  appendOk : Bool
  indexOk : Bool

/-- One reified disk write of the history store. -/
inductive DiskEff
  | ensureDir (projectId : String)
  | append (projectId : String) (file : String) (content : String)
  | writeIndex (projectId : String)
deriving DecidableEq, Repr

/-- The project id a disk write touches. -/
def DiskEff.pid : DiskEff → String
  | .ensureDir p => p
  | .append p _ _ => p
  | .writeIndex p => p

/-- The disk writes `flush` performs for one project with a non-empty queue.
The whole body is one try block: a thrown `ensureDirectory` aborts the
project before any write; a thrown `appendFileSync` aborts before the index
update; `updateIndex` catches internally.  The appended content is the
session header (when the day file is missing or stale) followed by the queued
records in order. -/
def projEffects (pid : String) (buf : List String) (e : FlushEnvEntry)
    (today dateStr timeStr : String) : List DiskEff :=
  if !e.mkdirOk then []
  else
    let needsHeader := !e.fileExists || isNewSession e.statAge
    let content := (if needsHeader then getSessionHeader dateStr timeStr else "")
      ++ String.join buf
    DiskEff.ensureDir pid ::
      (if e.appendOk then
        DiskEff.append pid (today ++ ".md") content ::
          (if e.indexOk then [DiskEff.writeIndex pid] else [])
      else [])

/-- Model of `flush()`: walk the buffer map, write each non-empty queue to that
project's day file for `today` (each project's failures caught
independently), then clear all buffers unconditionally. -/
def flush (s : HistState) (env : String → FlushEnvEntry)
    (today dateStr timeStr : String) : HistState × List DiskEff :=
  (⟨[]⟩,
    (s.writeBuffers.map (fun e =>
      if e.2.isEmpty then []
      else projEffects e.1 e.2 (env e.1) today dateStr timeStr)).flatten)

/-- One API event of the history store, with the environment each `flush`
encounters. -/
inductive HOp
  | append (projectId : String) (paneId : Nat) (ty : ExType) (time : String)
      (content : String)
  | doFlush (env : String → FlushEnvEntry) (today dateStr timeStr : String)

/-- Run a sequence of history-store events, collecting every disk write. -/
def runOps : HistState → List HOp → HistState × List DiskEff
  | s, [] => (s, [])
  | s, HOp.append pid pane ty time content :: rest =>
    runOps (appendExchange s pid pane ty time content) rest
  | s, HOp.doFlush env today dateStr timeStr :: rest =>
    let fl := flush s env today dateStr timeStr
    let r := runOps fl.1 rest
    (r.1, fl.2 ++ r.2)

/-! ### `search` (src/main/history.ts lines 262-309)

The project's history directory is an input: the list of (file name, file
content) pairs `readdirSync` and `readFileSync` would produce.  Unicode
`toLowerCase` beyond ASCII is not modelled: `Char.toLower` lowers exactly the
ASCII letters. -/

/-- Model of `lines[i].toLowerCase().includes(queryLower)` over character lists. -/
def lineMatch (qLower : List Char) (line : String) : Bool :=
  decide (qLower <:+: line.data.map Char.toLower)

/-- The inner line scan of `search`: at a matching line `i`, emit the slice
from `max 0 (i-2)` to `min lines.length (i+3)` exclusive, count it against
the budget, and set `i` to the slice end (so the loop increment resumes one
past it); fuel `lines.length` bounds the iteration count since `i` strictly
increases.  Blocks are returned as line slices; the source joins each with
newlines at push time. -/
def scanLines (lines : List String) (qLower : List Char) (limit : Nat) :
    Nat → Nat → Nat → List (List String) × Nat
  | 0, _, total => ([], total)
  | fuel + 1, i, total =>
    if i < lines.length && total < limit then
      if lineMatch qLower (lines.getD i "") then
        let start := i - 2
        let stop := min lines.length (i + 3)
        let context := (lines.drop start).take (stop - start)
        let r := scanLines lines qLower limit fuel (stop + 1) (total + 1)
        (context :: r.1, r.2)
      else scanLines lines qLower limit fuel (i + 1) total
    else ([], total)

/-- Model of the `file.replace` call of `search`: remove the first
occurrence of `.md` from the file name. -/
def stripMdName (l : List Char) : List Char :=
  match l with
  | [] => []
  | c :: cs =>
    if ['.', 'm', 'd'].isPrefixOf (c :: cs) then cs.drop 2
    else c :: stripMdName cs

/-- The per-file loop of `search`, carrying the cross-file match budget:
skip files once the budget is reached, scan each file's lines, and emit a
result entry (date = file name without `.md`, blocks joined with newlines)
when the file produced matches. -/
def searchGo (qLower : List Char) (limit : Nat) :
    List (String × String) → Nat → List (String × List String)
  | [], _ => []
  | (name, content) :: rest, total =>
    if limit ≤ total then []
    else
      let lines := splitNl content
      let r := scanLines lines qLower limit lines.length 0 total
      let ms := r.1.map joinNl
      (if ms.isEmpty then [] else
        [(String.mk (stripMdName name.data), ms)]) ++ searchGo qLower limit rest r.2

/-- Lexicographic code-point comparison of character lists. -/
def charListLt : List Char → List Char → Bool
  | [], [] => false
  | [], _ :: _ => true
  | _ :: _, [] => false
  | a :: as, b :: bs =>
    if a.toNat < b.toNat then true
    else if b.toNat < a.toNat then false
    else charListLt as bs

/-- Lexicographic code-point comparison of strings (kernel-reducible). -/
def strLt (a b : String) : Bool :=
  charListLt a.data b.data

/-- Insert into a name-descending list, after any entry of equal name: JS
`Array.prototype.sort` is stable, so ties keep directory order. -/
def insertFileDesc (x : String × String) : List (String × String) → List (String × String)
  | [] => [x]
  | y :: ys => if strLt y.1 x.1 then x :: y :: ys else y :: insertFileDesc x ys

/-- The stable descending sort `files.sort((a, b) => b.localeCompare(a))`,
with `localeCompare` modelled as code-point comparison (the file names are
ISO dates). -/
def sortFilesDesc (files : List (String × String)) : List (String × String) :=
  files.foldl (fun acc x => insertFileDesc x acc) []

/-- Model of `search(projectId, query, limit)` over the project's history directory
listing: keep the `.md` files, sort them most-recent-first (JS sort with
`(a, b) => b.localeCompare(a)`, i.e. descending), then scan with a shared
budget. -/
def search (files : List (String × String)) (query : String) (limit : Nat) :
    List (String × List String) :=
  let mds := files.filter (fun f => strEnds f.1 ".md")
  searchGo (query.data.map Char.toLower) limit (sortFilesDesc mds) 0

/-- The default `limit` of `search`. -/
def searchDefaultLimit : Nat := 50

/-- Total number of context blocks across a `search` result. -/
def totalBlocks (r : List (String × List String)) : Nat :=
  (r.map (fun e => e.2.length)).sum

/-- The context window the scan emits for a match at line index `i`: the
slice `lines.slice(max(0, i-2), min(lines.length, i+3))`, i.e. the two lines
before the matching line through the two lines after it, clipped at the file
boundaries (truncated subtraction supplies the `max(0, i-2)` clip). -/
def contextWindow (lines : List String) (i : Nat) : List String :=
  (lines.drop (i - 2)).take (min lines.length (i + 3) - (i - 2))

/-- All buffered project ids passed the `appendExchange` guard. -/
def goodBufs (s : HistState) : Prop :=
  ∀ pr ∈ s.writeBuffers, (pr.1 == "" || strStarts pr.1 "temp-") = false


/-! ### Lemmas about the `stripAnsi` passes -/

theorem csiTail_suffix : ∀ cs r, csiTail cs = some r → r <:+ cs := by
  intro cs
  induction cs with
  | nil => intro r h; simp [csiTail] at h
  | cons c cs ih =>
    intro r h
    simp only [csiTail] at h
    split at h
    · exact ((ih r h).trans (List.suffix_cons c cs))
    · split at h
      · cases h; exact List.suffix_cons c cs
      · cases h

theorem csiTail2_suffix : ∀ cs r, csiTail2 cs = some r → r <:+ cs := by
  intro cs
  induction cs with
  | nil => intro r h; simp [csiTail2] at h
  | cons c cs ih =>
    intro r h
    simp only [csiTail2] at h
    split at h
    · exact ((ih r h).trans (List.suffix_cons c cs))
    · split at h
      · cases h; exact List.suffix_cons c cs
      · cases h

theorem oscBelTail_suffix : ∀ cs r, oscBelTail cs = some r → r <:+ cs := by
  intro cs
  induction cs with
  | nil => intro r h; simp [oscBelTail] at h
  | cons c cs ih =>
    intro r h
    simp only [oscBelTail] at h
    split at h
    · cases h; exact List.suffix_cons c cs
    · split at h
      · cases h
      · exact ((ih r h).trans (List.suffix_cons c cs))

theorem escSeqTail_suffix : ∀ cs r, escSeqTail cs = some r → r <:+ cs := by
  intro cs
  induction cs with
  | nil => intro r h; simp [escSeqTail] at h
  | cons c cs ih =>
    intro r h
    simp only [escSeqTail] at h
    split at h
    · exact ((ih r h).trans (List.suffix_cons c cs))
    · split at h
      · cases h; exact List.suffix_cons c cs
      · cases h

theorem csiMatch_suffix : ∀ l r, csiMatch l = some r → r <:+ l := by
  intro l r h
  unfold csiMatch at h
  split at h
  · exact ((csiTail_suffix _ _ h).trans
      ((List.suffix_cons _ _).trans ((List.suffix_cons _ _).trans (List.suffix_cons _ _))))
  · exact ((csiTail_suffix _ _ h).trans
      ((List.suffix_cons _ _).trans (List.suffix_cons _ _)))
  · cases h

theorem modeMatch_suffix : ∀ l r, modeMatch l = some r → r <:+ l := by
  intro l r h
  unfold modeMatch at h
  split at h
  · exact ((csiTail2_suffix _ _ h).trans
      ((List.suffix_cons _ _).trans ((List.suffix_cons _ _).trans (List.suffix_cons _ _))))
  · cases h

theorem oscBelMatch_suffix : ∀ l r, oscBelMatch l = some r → r <:+ l := by
  intro l r h
  unfold oscBelMatch at h
  split at h
  · exact ((oscBelTail_suffix _ _ h).trans
      ((List.suffix_cons _ _).trans (List.suffix_cons _ _)))
  · cases h

theorem oscStMatch_suffix : ∀ l r, oscStMatch l = some r → r <:+ l := by
  intro l r h
  unfold oscStMatch at h
  split at h
  · cases h
    exact ((List.dropWhile_suffix _).trans
      ((List.suffix_cons _ _).trans (List.suffix_cons _ _)))
  · cases h

theorem charsetMatch_suffix : ∀ l r, charsetMatch l = some r → r <:+ l := by
  intro l r h
  unfold charsetMatch at h
  split at h
  · split at h
    · cases h
      exact ((List.suffix_cons _ _).trans
        ((List.suffix_cons _ _).trans (List.suffix_cons _ _)))
    · cases h
  · cases h

theorem escSeqMatch_suffix : ∀ l r, escSeqMatch l = some r → r <:+ l := by
  intro l r h
  unfold escSeqMatch at h
  split at h
  · exact ((escSeqTail_suffix _ _ h).trans (List.suffix_cons _ _))
  · cases h

theorem keypadMatch_suffix : ∀ l r, keypadMatch l = some r → r <:+ l := by
  intro l r h
  unfold keypadMatch at h
  split at h
  · split at h
    · cases h
      exact ((List.suffix_cons _ _).trans (List.suffix_cons _ _))
    · cases h
  · cases h

theorem csiMatch_trigger : ∀ l r, csiMatch l = some r → ∃ t, l = escChar :: t := by
  intro l r h
  unfold csiMatch at h
  split at h
  · exact ⟨_, rfl⟩
  · exact ⟨_, rfl⟩
  · cases h

theorem modeMatch_trigger : ∀ l r, modeMatch l = some r → ∃ t, l = escChar :: t := by
  intro l r h
  unfold modeMatch at h
  split at h
  · exact ⟨_, rfl⟩
  · cases h

theorem oscBelMatch_trigger : ∀ l r, oscBelMatch l = some r → ∃ t, l = escChar :: t := by
  intro l r h
  unfold oscBelMatch at h
  split at h
  · exact ⟨_, rfl⟩
  · cases h

theorem oscStMatch_trigger : ∀ l r, oscStMatch l = some r → ∃ t, l = escChar :: t := by
  intro l r h
  unfold oscStMatch at h
  split at h
  · exact ⟨_, rfl⟩
  · cases h

theorem charsetMatch_trigger : ∀ l r, charsetMatch l = some r → ∃ t, l = escChar :: t := by
  intro l r h
  unfold charsetMatch at h
  split at h
  · exact ⟨_, rfl⟩
  · cases h

theorem escSeqMatch_trigger : ∀ l r, escSeqMatch l = some r → ∃ t, l = escChar :: t := by
  intro l r h
  unfold escSeqMatch at h
  split at h
  · exact ⟨_, rfl⟩
  · cases h

theorem keypadMatch_trigger : ∀ l r, keypadMatch l = some r → ∃ t, l = escChar :: t := by
  intro l r h
  unfold keypadMatch at h
  split at h
  · exact ⟨_, rfl⟩
  · cases h

theorem runPassF_sublist (m : List Char → Option (List Char))
    (hm : ∀ l r, m l = some r → r <:+ l) :
    ∀ fuel l, (runPassF m fuel l).Sublist l := by
  intro fuel
  induction fuel with
  | zero => intro l; simp [runPassF]
  | succ fuel ih =>
    intro l
    match l with
    | [] => simp [runPassF]
    | c :: cs =>
      simp only [runPassF]
      cases hmc : m (c :: cs) with
      | some rest =>
        exact ((ih rest).trans ((hm _ _ hmc).sublist))
      | none =>
        exact List.Sublist.cons₂ c (ih cs)

theorem runPassF_id (m : List Char → Option (List Char))
    (hm : ∀ l r, m l = some r → ∃ t, l = escChar :: t) :
    ∀ fuel l, escChar ∉ l → runPassF m fuel l = l := by
  intro fuel
  induction fuel with
  | zero => intro l _; simp [runPassF]
  | succ fuel ih =>
    intro l hesc
    match l with
    | [] => simp [runPassF]
    | c :: cs =>
      have hne : m (c :: cs) = none := by
        cases hmc : m (c :: cs) with
        | none => rfl
        | some r =>
          obtain ⟨t, ht⟩ := hm _ _ hmc
          rw [List.cons_eq_cons] at ht
          obtain ⟨h1, -⟩ := ht
          subst h1
          exact absurd (List.mem_cons_self _ _) hesc
      simp only [runPassF, hne]
      rw [ih cs (fun hc => hesc (List.mem_cons_of_mem c hc))]

theorem applyPass_sublist (m : List Char → Option (List Char))
    (hm : ∀ l r, m l = some r → r <:+ l) (l : List Char) :
    (applyPass m l).Sublist l :=
  runPassF_sublist m hm l.length l

theorem applyPass_id (m : List Char → Option (List Char))
    (hm : ∀ l r, m l = some r → ∃ t, l = escChar :: t) (l : List Char)
    (hesc : escChar ∉ l) : applyPass m l = l :=
  runPassF_id m hm l.length l hesc

/-- The normalizer only deletes characters: its output is a sublist of its
input. -/
theorem stripAnsiL_sublist (l : List Char) : (stripAnsiL l).Sublist l := by
  unfold stripAnsiL
  refine (List.filter_sublist _).trans ?_
  refine (applyPass_sublist _ keypadMatch_suffix _).trans ?_
  refine (applyPass_sublist _ escSeqMatch_suffix _).trans ?_
  refine (applyPass_sublist _ charsetMatch_suffix _).trans ?_
  refine (applyPass_sublist _ oscStMatch_suffix _).trans ?_
  refine (applyPass_sublist _ oscBelMatch_suffix _).trans ?_
  refine (applyPass_sublist _ modeMatch_suffix _).trans ?_
  exact applyPass_sublist _ csiMatch_suffix _

/-- The normalizer's output never contains a carriage return. -/
theorem stripAnsiL_no_cr (l : List Char) : '\r' ∉ stripAnsiL l := by
  unfold stripAnsiL
  intro hmem
  have := (List.mem_filter.mp hmem).2
  simp at this

/-! ### Lemmas about the `PtyManager` state -/

theorem lookupPane_none_iff (s : PtyState) (p : Nat) :
    lookupPane s p = none ↔ ∀ e ∈ s.ptys, (e.1 == p) = false := by
  unfold lookupPane
  constructor
  · intro h e he
    cases hf : s.ptys.find? (fun e => e.1 == p) with
    | none =>
      have := List.find?_eq_none.mp hf e he
      simpa using this
    | some v => rw [hf] at h; cases h
  · intro h
    have hn : s.ptys.find? (fun e => e.1 == p) = none :=
      List.find?_eq_none.mpr (fun x hx => by rw [h x hx]; exact Bool.false_ne_true)
    rw [hn]
    rfl

theorem killPty_no_key (s : PtyState) (p : Nat) :
    ∀ e ∈ (killPty s p).ptys, (e.1 == p) = false := by
  unfold killPty
  cases hl : lookupPane s p with
  | none => exact (lookupPane_none_iff s p).mp hl
  | some inst =>
    intro e he
    have := (List.mem_filter.mp he).2
    simpa using this

theorem killPty_nextPid (s : PtyState) (p : Nat) :
    (killPty s p).nextPid = s.nextPid := by
  unfold killPty
  cases lookupPane s p <;> rfl

theorem killPty_killed_mono (s : PtyState) (p : Nat) :
    ∀ k ∈ s.killed, k ∈ (killPty s p).killed := by
  unfold killPty
  cases lookupPane s p with
  | none => intro k hk; exact hk
  | some inst => intro k hk; exact List.mem_cons_of_mem _ hk

theorem lookupPane_mem (s : PtyState) (p : Nat) (inst : PtyInstance)
    (h : lookupPane s p = some inst) : ∃ e ∈ s.ptys, e.2 = inst ∧ (e.1 == p) = true := by
  unfold lookupPane at h
  cases hf : s.ptys.find? (fun e => e.1 == p) with
  | none => rw [hf] at h; cases h
  | some v =>
    rw [hf] at h
    have hs : (v.1 == p) = true := by simpa using List.find?_some hf
    refine ⟨v, List.mem_of_find?_eq_some hf, ?_, hs⟩
    cases h
    rfl

theorem killPty_kills (s : PtyState) (p : Nat) (inst : PtyInstance)
    (h : lookupPane s p = some inst) : inst.pid ∈ (killPty s p).killed := by
  unfold killPty
  rw [h]
  exact List.mem_cons_self _ _

theorem PtyWF_killPty (s : PtyState) (p : Nat) (h : PtyWF s) : PtyWF (killPty s p) := by
  obtain ⟨h1, h2, h3⟩ := h
  unfold killPty
  cases hl : lookupPane s p with
  | none => exact ⟨h1, h2, h3⟩
  | some inst =>
    refine ⟨?_, ?_, ?_⟩
    · exact List.Nodup.sublist (List.Sublist.map _ (List.filter_sublist _)) h1
    · intro e he
      exact h2 e ((List.filter_sublist _).mem he)
    · intro k hk
      rw [List.mem_cons] at hk
      cases hk with
      | inl hke =>
        obtain ⟨e, he, he2, -⟩ := lookupPane_mem s p inst hl
        rw [hke, ← he2]
        exact h2 e he
      | inr hks => exact h3 k hks

theorem mapSet_append_of_no_key (l : List (Nat × PtyInstance)) (k : Nat)
    (v : PtyInstance) (h : ∀ e ∈ l, (e.1 == k) = false) :
    mapSet l k v = l ++ [(k, v)] := by
  unfold mapSet
  split
  next hany =>
    exfalso
    rw [List.any_eq_true] at hany
    obtain ⟨e, he, hek⟩ := hany
    rw [h e he] at hek
    cases hek
  next => rfl

theorem createPty_state_of_ok (s : PtyState) (p : Nat) (c : Option String) :
    ((createPty s p c true).1).ptys
      = (killPty s p).ptys ++ [(p, ⟨(killPty s p).nextPid, c.getD homeDir⟩)] ∧
    ((createPty s p c true).1).nextPid = (killPty s p).nextPid + 1 ∧
    ((createPty s p c true).1).killed = (killPty s p).killed := by
  unfold createPty
  refine ⟨?_, rfl, rfl⟩
  simp only
  exact mapSet_append_of_no_key _ p _ (killPty_no_key s p)

theorem createPty_killed_mono (s : PtyState) (p : Nat) (c : Option String) (b : Bool) :
    ∀ k ∈ s.killed, k ∈ ((createPty s p c b).1).killed := by
  unfold createPty
  cases b with
  | true => intro k hk; exact killPty_killed_mono s p k hk
  | false => intro k hk; exact killPty_killed_mono s p k hk

theorem PtyWF_createPty (s : PtyState) (p : Nat) (c : Option String) (b : Bool)
    (h : PtyWF s) : PtyWF ((createPty s p c b).1) := by
  have hk := PtyWF_killPty s p h
  obtain ⟨h1, h2, h3⟩ := hk
  cases b with
  | false => exact ⟨h1, h2, h3⟩
  | true =>
    obtain ⟨hp, hn, hkd⟩ := createPty_state_of_ok s p c
    refine ⟨?_, ?_, ?_⟩
    · rw [hp, List.map_append, List.nodup_append]
      refine ⟨h1, List.nodup_singleton _, ?_⟩
      intro a ha hb
      simp only [List.map_cons, List.map_nil, List.mem_singleton] at hb
      obtain ⟨e, he, hea⟩ := List.mem_map.mp ha
      have := killPty_no_key s p e he
      rw [hea, hb] at this
      simp at this
    · intro e he
      rw [hp] at he
      rw [hn]
      rcases List.mem_append.mp he with hl | hr
      · exact Nat.lt_succ_of_lt (h2 e hl)
      · simp only [List.mem_singleton] at hr
        rw [hr]
        exact Nat.lt_succ_self _
    · intro k hkk
      rw [hkd] at hkk
      rw [hn]
      exact Nat.lt_succ_of_lt (h3 k hkk)

theorem liveCount_le_one (s : PtyState) (q : Nat)
    (h : (s.ptys.map Prod.fst).Nodup) : liveCount s q ≤ 1 := by
  unfold liveCount
  have hle : (s.ptys.filter
      (fun e => e.1 == q && !(decide (e.2.pid ∈ s.killed)))).length
      ≤ (s.ptys.filter (fun e => e.1 == q)).length := by
    rw [← List.countP_eq_length_filter, ← List.countP_eq_length_filter]
    refine List.countP_mono_left ?_
    intro e _ he
    exact (Bool.and_eq_true _ _).mp he |>.1
  refine hle.trans ?_
  rw [← List.countP_eq_length_filter]
  have hcp : s.ptys.countP (fun e => e.1 == q)
      = (s.ptys.map Prod.fst).countP (fun x => x == q) := by
    rw [List.countP_map]
    rfl
  rw [hcp, ← List.count_eq_countP]
  exact List.nodup_iff_count_le_one.mp h q

/-- Text free of ESC bytes and carriage returns passes through the
normalizer unchanged. -/
theorem stripAnsiL_id (l : List Char) (hesc : escChar ∉ l) (hcr : '\r' ∉ l) :
    stripAnsiL l = l := by
  unfold stripAnsiL
  rw [applyPass_id _ csiMatch_trigger _ hesc,
    applyPass_id _ modeMatch_trigger _ hesc,
    applyPass_id _ oscBelMatch_trigger _ hesc,
    applyPass_id _ oscStMatch_trigger _ hesc,
    applyPass_id _ charsetMatch_trigger _ hesc,
    applyPass_id _ escSeqMatch_trigger _ hesc,
    applyPass_id _ keypadMatch_trigger _ hesc]
  rw [List.filter_eq_self]
  intro a ha
  have hne : a ≠ '\r' := fun hh => hcr (hh ▸ ha)
  simp [hne]

/-! ### Lemmas about the `HistoryManager` state -/

theorem appendExchange_skip (s : HistState) (pid : String) (pane : Nat)
    (ty : ExType) (time content : String)
    (h : (pid == "" || strStarts pid "temp-") = true) :
    appendExchange s pid pane ty time content = s := by
  unfold appendExchange
  rw [if_pos h]

theorem goodBufs_init : goodBufs initHist := by
  intro pr hpr
  cases hpr

theorem goodBufs_appendExchange (s : HistState) (pid : String) (pane : Nat)
    (ty : ExType) (time content : String) (h : goodBufs s) :
    goodBufs (appendExchange s pid pane ty time content) := by
  unfold appendExchange
  split
  · exact h
  next hguard =>
    intro pr hpr
    unfold bufPush at hpr
    split at hpr
    · obtain ⟨e, he, hee⟩ := List.mem_map.mp hpr
      have hge := h e he
      split at hee
      · rw [← hee]
        exact hge
      · rw [← hee]
        exact hge
    · rcases List.mem_append.mp hpr with hl | hr
      · exact h pr hl
      · simp only [List.mem_singleton] at hr
        rw [hr]
        simp only [Bool.or_eq_false_iff]
        constructor
        · have := Bool.not_eq_true _ ▸ hguard
          rcases Bool.or_eq_false_iff.mp (Bool.eq_false_iff.mpr hguard) with ⟨h1, _⟩
          exact h1
        · rcases Bool.or_eq_false_iff.mp (Bool.eq_false_iff.mpr hguard) with ⟨_, h2⟩
          exact h2

theorem projEffects_pid (pid : String) (buf : List String) (e : FlushEnvEntry)
    (today dateStr timeStr : String) :
    ∀ d ∈ projEffects pid buf e today dateStr timeStr, d.pid = pid := by
  unfold projEffects
  split
  · intro d hd; cases hd
  · intro d hd
    rw [List.mem_cons] at hd
    rcases hd with h1 | h2
    · rw [h1]; rfl
    · split at h2
      · rw [List.mem_cons] at h2
        rcases h2 with h3 | h4
        · rw [h3]; rfl
        · split at h4
          · simp only [List.mem_singleton] at h4
            rw [h4]; rfl
          · cases h4
      · cases h2

theorem flush_effect_pid (s : HistState) (env : String → FlushEnvEntry)
    (today dateStr timeStr : String) :
    ∀ d ∈ (flush s env today dateStr timeStr).2, ∃ pr ∈ s.writeBuffers, d.pid = pr.1 := by
  intro d hd
  unfold flush at hd
  simp only at hd
  rw [List.mem_flatten] at hd
  obtain ⟨l, hl, hdl⟩ := hd
  obtain ⟨pr, hpr, hprl⟩ := List.mem_map.mp hl
  refine ⟨pr, hpr, ?_⟩
  rw [← hprl] at hdl
  split at hdl
  · cases hdl
  · exact projEffects_pid pr.1 pr.2 (env pr.1) today dateStr timeStr d hdl

theorem flush_clears (s : HistState) (env : String → FlushEnvEntry)
    (today dateStr timeStr : String) :
    (flush s env today dateStr timeStr).1 = initHist := rfl

theorem flush_no_writes_of_empty (s : HistState) (env : String → FlushEnvEntry)
    (today dateStr timeStr : String) (h : ∀ pr ∈ s.writeBuffers, pr.2 = []) :
    (flush s env today dateStr timeStr).2 = [] := by
  unfold flush
  simp only
  rw [List.flatten_eq_nil_iff]
  intro l hl
  obtain ⟨pr, hpr, hprl⟩ := List.mem_map.mp hl
  rw [← hprl, h pr hpr]
  rfl

theorem runOps_no_temp (ops : List HOp) :
    ∀ s, goodBufs s →
      ∀ d ∈ (runOps s ops).2, (d.pid == "" || strStarts d.pid "temp-") = false := by
  induction ops with
  | nil => intro s _ d hd; cases hd
  | cons op rest ih =>
    intro s hs d hd
    cases op with
    | append pid pane ty time content =>
      exact ih _ (goodBufs_appendExchange s pid pane ty time content hs) d hd
    | doFlush env today dateStr timeStr =>
      simp only [runOps] at hd
      rw [List.mem_append] at hd
      rcases hd with h1 | h2
      · obtain ⟨pr, hpr, hdpr⟩ := flush_effect_pid s env today dateStr timeStr d h1
        rw [hdpr]
        exact hs pr hpr
      · refine ih _ ?_ d h2
        rw [flush_clears]
        exact goodBufs_init

theorem flush_append_mem (s : HistState) (env : String → FlushEnvEntry)
    (today dateStr timeStr pid : String) (buf : List String)
    (hmem : (pid, buf) ∈ s.writeBuffers) (hne : buf.isEmpty = false)
    (hmk : (env pid).mkdirOk = true) (hap : (env pid).appendOk = true) :
    DiskEff.append pid (today ++ ".md")
      ((if (!(env pid).fileExists || isNewSession (env pid).statAge) = true
        then getSessionHeader dateStr timeStr else "") ++ String.join buf)
      ∈ (flush s env today dateStr timeStr).2 := by
  unfold flush
  simp only
  rw [List.mem_flatten]
  refine ⟨_, List.mem_map_of_mem
    (fun e => if e.2.isEmpty then []
      else projEffects e.1 e.2 (env e.1) today dateStr timeStr) hmem, ?_⟩
  simp only [hne]
  unfold projEffects
  rw [hmk]
  simp only [Bool.not_true, Bool.false_eq_true, if_false]
  rw [hap]
  simp only [if_true]
  exact List.mem_cons_of_mem _ (List.mem_cons_self _ _)

theorem find?_mapAppend (k : String) (v : String) :
    ∀ l : List (String × List String), l.any (fun e => e.1 == k) = true →
      ((l.map (fun e => if e.1 == k then (e.1, e.2 ++ [v]) else e)).find?
          (fun e => e.1 == k)).map Prod.snd
        = some ((((l.find? (fun e => e.1 == k)).map Prod.snd).getD []) ++ [v]) := by
  intro l
  induction l with
  | nil => intro h; cases h
  | cons e es ih =>
    intro hany
    by_cases hek : (e.1 == k) = true
    · rw [List.map_cons, if_pos hek]
      simp only [List.find?, hek]
      rfl
    · have hekf : (e.1 == k) = false := Bool.eq_false_iff.mpr hek
      rw [List.map_cons, if_neg hek]
      simp only [List.find?, hekf]
      refine ih ?_
      rw [List.any_cons] at hany
      rcases (Bool.or_eq_true _ _).mp hany with h1 | h2
      · exact absurd h1 hek
      · exact h2

theorem find?_bufPush (l : List (String × List String)) (k : String) (v : String) :
    ((bufPush l k v).find? (fun e => e.1 == k)).map Prod.snd
      = some ((((l.find? (fun e => e.1 == k)).map Prod.snd).getD []) ++ [v]) := by
  cases hany : l.any (fun e => e.1 == k) with
  | true =>
    unfold bufPush
    rw [hany, if_pos rfl]
    exact find?_mapAppend k v l hany
  | false =>
    unfold bufPush
    rw [hany, if_neg Bool.false_ne_true]
    have hnone : l.find? (fun e => e.1 == k) = none := by
      rw [List.find?_eq_none]
      intro x hx hxk
      rw [List.any_eq_false] at hany
      exact hany x hx hxk
    rw [List.find?_append, hnone]
    simp [List.find?, hnone]

/-- Look up a project's queue after a push: the pushed record is appended to
the existing queue (or starts a fresh one). -/
theorem bufGet_appendExchange (s : HistState) (pid : String) (pane : Nat)
    (ty : ExType) (time content : String)
    (hguard : (pid == "" || strStarts pid "temp-") = false) :
    bufGet (appendExchange s pid pane ty time content) pid
      = some ((bufGet s pid).getD []
          ++ [formatExchange time pane ty content]) := by
  unfold appendExchange
  rw [if_neg (by rw [hguard]; exact Bool.false_ne_true)]
  unfold bufGet
  exact find?_bufPush s.writeBuffers pid (formatExchange time pane ty content)

/-! ### Lemmas about `search` -/

theorem charListLt_asymm : ∀ a b, charListLt a b = true → charListLt b a = false := by
  intro a
  induction a with
  | nil =>
    intro b h
    cases b with
    | nil => cases h
    | cons c cs => rfl
  | cons x xs ih =>
    intro b h
    cases b with
    | nil => cases h
    | cons y ys =>
      simp only [charListLt] at h ⊢
      split at h
      next hxy => rw [if_neg (by omega), if_pos (by omega)]
      next hnxy =>
        split at h
        next => cases h
        next hnyx =>
          rw [if_neg hnyx, if_neg hnxy]
          exact ih ys h

theorem charListLt_le_lt :
    ∀ y z x, charListLt y z = false → charListLt y x = true → charListLt z x = true := by
  intro y
  induction y with
  | nil =>
    intro z x h1 h2
    cases z with
    | nil => exact h2
    | cons b bs => cases h1
  | cons a as ih =>
    intro z x h1 h2
    cases x with
    | nil => cases h2
    | cons c cs =>
      cases z with
      | nil => rfl
      | cons b bs =>
        simp only [charListLt] at h1 h2 ⊢
        split at h1
        next => cases h1
        next hnab =>
          split at h1
          next hba =>
            split at h2
            next hac => rw [if_pos (by omega)]
            next hnac =>
              split at h2
              next => cases h2
              next hnca => rw [if_pos (by omega)]
          next hnba =>
            split at h2
            next hac => rw [if_pos (by omega)]
            next hnac =>
              split at h2
              next => cases h2
              next hnca =>
                rw [if_neg (by omega), if_neg (by omega)]
                exact ih bs cs h1 h2

theorem strLt_asymm (a b : String) (h : strLt a b = true) : strLt b a = false :=
  charListLt_asymm a.data b.data h

theorem strLt_le_lt (y z x : String) (h1 : strLt y z = false)
    (h2 : strLt y x = true) : strLt z x = true :=
  charListLt_le_lt y.data z.data x.data h1 h2

theorem insertFileDesc_mem (x : String × String) :
    ∀ l z, z ∈ insertFileDesc x l → z = x ∨ z ∈ l := by
  intro l
  induction l with
  | nil =>
    intro z hz
    simp only [insertFileDesc, List.mem_singleton] at hz
    exact Or.inl hz
  | cons y ys ih =>
    intro z hz
    unfold insertFileDesc at hz
    split at hz
    · rcases List.mem_cons.mp hz with h1 | h2
      · exact Or.inl h1
      · exact Or.inr h2
    · rcases List.mem_cons.mp hz with h1 | h2
      · exact Or.inr (h1 ▸ List.mem_cons_self _ _)
      · rcases ih z h2 with h3 | h4
        · exact Or.inl h3
        · exact Or.inr (List.mem_cons_of_mem _ h4)

theorem pairwise_insertFileDesc (x : String × String) :
    ∀ l, l.Pairwise (fun a b => strLt a.1 b.1 = false) →
      (insertFileDesc x l).Pairwise (fun a b => strLt a.1 b.1 = false) := by
  intro l
  induction l with
  | nil =>
    intro _
    simp [insertFileDesc]
  | cons y ys ih =>
    intro h
    rw [List.pairwise_cons] at h
    obtain ⟨hy, hys⟩ := h
    unfold insertFileDesc
    split
    next hlt =>
      rw [List.pairwise_cons]
      refine ⟨?_, ?_⟩
      · intro z hz
        rcases List.mem_cons.mp hz with h1 | h2
        · rw [h1]
          exact strLt_asymm _ _ hlt
        · exact strLt_asymm _ _ (strLt_le_lt y.1 z.1 x.1 (hy z h2) hlt)
      · rw [List.pairwise_cons]
        exact ⟨hy, hys⟩
    next hnlt =>
      rw [List.pairwise_cons]
      refine ⟨?_, ih hys⟩
      intro z hz
      rcases insertFileDesc_mem x ys z hz with h1 | h2
      · rw [h1]
        exact Bool.eq_false_iff.mpr hnlt
      · exact hy z h2

theorem foldl_insert_pairwise :
    ∀ (fs : List (String × String)) (acc : List (String × String)),
      acc.Pairwise (fun a b => strLt a.1 b.1 = false) →
      (fs.foldl (fun acc x => insertFileDesc x acc) acc).Pairwise
        (fun a b => strLt a.1 b.1 = false) := by
  intro fs
  induction fs with
  | nil => intro acc h; exact h
  | cons f fs ih => intro acc h; exact ih _ (pairwise_insertFileDesc f acc h)

/-- The sorted file list is name-descending. -/
theorem sortFilesDesc_pairwise (files : List (String × String)) :
    (sortFilesDesc files).Pairwise (fun a b => strLt a.1 b.1 = false) :=
  foldl_insert_pairwise files [] List.Pairwise.nil

/-- The running total returned by the line scan is the old total plus the
number of emitted blocks, and it never exceeds the budget. -/
theorem scanLines_total (lines : List String) (qL : List Char) (limit : Nat) :
    ∀ fuel i total,
      (scanLines lines qL limit fuel i total).2
        = total + (scanLines lines qL limit fuel i total).1.length ∧
      (total ≤ limit → (scanLines lines qL limit fuel i total).2 ≤ limit) := by
  intro fuel
  induction fuel with
  | zero =>
    intro i total
    simp [scanLines]
  | succ fuel ih =>
    intro i total
    simp only [scanLines]
    split
    next hcond =>
      simp only [Bool.and_eq_true, decide_eq_true_eq] at hcond
      split
      next hmatch =>
        obtain ⟨h1, h2⟩ := ih (min lines.length (i + 3) + 1) (total + 1)
        refine ⟨?_, ?_⟩
        · simp only [List.length_cons]
          omega
        · intro _
          exact h2 (by omega)
      next hmiss => exact ih (i + 1) total
    next hcond => simp

/-- Index-based membership in a prefix of a list. -/
theorem getD_mem_take : ∀ (l : List String) (n i : Nat), i < n → i < l.length →
    l.getD i "" ∈ l.take n := by
  intro l
  induction l with
  | nil =>
    intro n i h1 h2
    simp at h2
  | cons a as ih =>
    intro n i h1 h2
    cases n with
    | zero => omega
    | succ n =>
      cases i with
      | zero =>
        simp only [List.getD_cons_zero, List.take_succ_cons]
        exact List.mem_cons_self _ _
      | succ i =>
        simp only [List.getD_cons_succ, List.take_succ_cons]
        refine List.mem_cons_of_mem a (ih n i (by omega) ?_)
        simp only [List.length_cons] at h2
        omega

/-- Index-based membership in a slice of a list. -/
theorem getD_mem_drop_take : ∀ (l : List String) (s n i : Nat), s ≤ i →
    i < s + n → i < l.length → l.getD i "" ∈ (l.drop s).take n := by
  intro l s
  induction s generalizing l with
  | zero =>
    intro n i h1 h2 h3
    simpa using getD_mem_take l n i (by omega) h3
  | succ s ih =>
    intro n i h1 h2 h3
    cases l with
    | nil => simp at h3
    | cons a as =>
      have hi : i = (i - 1) + 1 := by omega
      rw [hi]
      simp only [List.getD_cons_succ, List.drop_succ_cons]
      refine ih as n (i - 1) (by omega) (by omega) ?_
      simp only [List.length_cons] at h3
      omega

/-- Every context block emitted by the line scan is non-empty, spans at most
five lines, and contains a line matching the query. -/
theorem scanLines_blocks (lines : List String) (qL : List Char) (limit : Nat) :
    ∀ fuel i total, ∀ b ∈ (scanLines lines qL limit fuel i total).1,
      b ≠ [] ∧ b.length ≤ 5 ∧ ∃ line ∈ b, lineMatch qL line = true := by
  intro fuel
  induction fuel with
  | zero =>
    intro i total b hb
    simp [scanLines] at hb
  | succ fuel ih =>
    intro i total b hb
    simp only [scanLines] at hb
    split at hb
    next hcond =>
      simp only [Bool.and_eq_true, decide_eq_true_eq] at hcond
      obtain ⟨hi, -⟩ := hcond
      split at hb
      next hmatch =>
        rcases List.mem_cons.mp hb with hhead | htail
        · subst hhead
          have hstop1 : i + 1 ≤ min lines.length (i + 3) := by omega
          have hlen : ((lines.drop (i - 2)).take
              (min lines.length (i + 3) - (i - 2))).length
              = min (min lines.length (i + 3) - (i - 2))
                  (lines.length - (i - 2)) := by
            rw [List.length_take, List.length_drop]
          refine ⟨?_, ?_, ?_⟩
          · intro hnil
            rw [hnil] at hlen
            simp only [List.length_nil] at hlen
            omega
          · rw [hlen]
            omega
          · refine ⟨lines.getD i "", ?_, hmatch⟩
            exact getD_mem_drop_take lines (i - 2)
              (min lines.length (i + 3) - (i - 2)) i (by omega) (by omega) hi
        · exact ih _ _ b htail
      next hmiss => exact ih _ _ b hb
    next => cases hb

/-- The per-file loop never emits more blocks than the remaining budget. -/
theorem searchGo_budget (qL : List Char) (limit : Nat) :
    ∀ fs total, total ≤ limit →
      total + totalBlocks (searchGo qL limit fs total) ≤ limit := by
  intro fs
  induction fs with
  | nil =>
    intro total h
    simpa [searchGo, totalBlocks] using h
  | cons f rest ih =>
    intro total h
    simp only [searchGo]
    split
    next => simpa [totalBlocks] using h
    next hlim =>
      obtain ⟨ht1, ht2⟩ := scanLines_total (splitNl f.2) qL limit
        (splitNl f.2).length 0 total
      have hrec := ih (scanLines (splitNl f.2) qL limit
        (splitNl f.2).length 0 total).2 (ht2 h)
      unfold totalBlocks at hrec ⊢
      rw [List.map_append, List.sum_append]
      split
      next hempty =>
        simp only [List.map_nil, List.sum_nil]
        omega
      next hne =>
        simp only [List.map_cons, List.map_nil, List.sum_cons, List.sum_nil]
        rw [List.length_map]
        omega

/-- The result entries appear in file order, with `.md` stripped from the
names. -/
theorem searchGo_fst_sublist (qL : List Char) (limit : Nat) :
    ∀ fs total,
      ((searchGo qL limit fs total).map Prod.fst).Sublist
        (fs.map (fun f => String.mk (stripMdName f.1.data))) := by
  intro fs
  induction fs with
  | nil =>
    intro total
    simp [searchGo]
  | cons f rest ih =>
    intro total
    simp only [searchGo]
    split
    next => exact List.nil_sublist _
    next =>
      rw [List.map_cons]
      split
      next =>
        simp only [List.nil_append]
        exact (ih _).cons _
      next =>
        rw [List.cons_append, List.map_cons, List.nil_append]
        exact (ih _).cons₂ _

/-- Every block of a `searchGo` result is the newline-join of a non-empty
slice of at most five lines containing a match. -/
theorem searchGo_block_shape (qL : List Char) (limit : Nat) :
    ∀ fs total, ∀ pr ∈ searchGo qL limit fs total, ∀ m ∈ pr.2,
      ∃ b, b ≠ [] ∧ b.length ≤ 5 ∧ (∃ line ∈ b, lineMatch qL line = true) ∧
        m = joinNl b := by
  intro fs
  induction fs with
  | nil =>
    intro total pr hpr
    simp [searchGo] at hpr
  | cons f rest ih =>
    intro total pr hpr m hm
    simp only [searchGo] at hpr
    split at hpr
    next => cases hpr
    next =>
      rcases List.mem_append.mp hpr with hl | hr
      · split at hl
        next => cases hl
        next =>
          simp only [List.mem_singleton] at hl
          subst hl
          simp only at hm
          obtain ⟨b, hb, hbm⟩ := List.mem_map.mp hm
          obtain ⟨hb1, hb2, hb3⟩ := scanLines_blocks (splitNl f.2) qL limit
            (splitNl f.2).length 0 total b hb
          exact ⟨b, hb1, hb2, hb3, hbm.symm⟩
      · exact ih _ pr hr m hm

/-- Full characterization of the line scan: from start index `i0` it emits
exactly the context windows of a list `is` of matching line indices; the
running total grows by their number and stays within budget; each index after
the first lies at least one past the previous window end (the pointer jump
`i = stop` followed by the loop increment); and when the budget is not
exhausted no matching line at or after `i0` is missed - it is an emitted
match index or lies inside an emitted window. -/
theorem scanLines_windows (lines : List String) (qL : List Char) (limit : Nat) :
    ∀ fuel i0 total, lines.length ≤ fuel + i0 → total ≤ limit →
      ∃ is : List Nat,
        (scanLines lines qL limit fuel i0 total).1
          = is.map (contextWindow lines) ∧
        (scanLines lines qL limit fuel i0 total).2 = total + is.length ∧
        total + is.length ≤ limit ∧
        (∀ j ∈ is, i0 ≤ j ∧ j < lines.length ∧
          lineMatch qL (lines.getD j "") = true) ∧
        is.Chain' (fun a b => min lines.length (a + 3) + 1 ≤ b) ∧
        (total + is.length < limit →
          ∀ j, i0 ≤ j → j < lines.length →
            lineMatch qL (lines.getD j "") = true →
            j ∈ is ∨ ∃ m ∈ is, m < j ∧ j ≤ min lines.length (m + 3)) := by
  intro fuel
  induction fuel with
  | zero =>
    intro i0 total hfuel htl
    refine ⟨[], by simp [scanLines], by simp [scanLines], by simpa using htl,
      by simp, by simp, ?_⟩
    intro _ j hj1 hj2 _
    omega
  | succ fuel ih =>
    intro i0 total hfuel htl
    simp only [scanLines]
    split
    next hcond =>
      simp only [Bool.and_eq_true, decide_eq_true_eq] at hcond
      obtain ⟨hi, hlt⟩ := hcond
      split
      next hmatch =>
        obtain ⟨is', hb, ht, hbud, hmem, hch, hcomp⟩ :=
          ih (min lines.length (i0 + 3) + 1) (total + 1) (by omega) (by omega)
        refine ⟨i0 :: is', ?_, ?_, ?_, ?_, ?_, ?_⟩
        · rw [List.map_cons, hb]
          rfl
        · rw [ht]
          simp only [List.length_cons]
          omega
        · simp only [List.length_cons]
          omega
        · intro j hj
          rcases List.mem_cons.mp hj with h1 | h2
          · exact ⟨by omega, by rw [h1]; exact hi, by rw [h1]; exact hmatch⟩
          · obtain ⟨hj1, hj2, hj3⟩ := hmem j h2
            exact ⟨by omega, hj2, hj3⟩
        · rw [List.chain'_cons']
          refine ⟨?_, hch⟩
          intro b hbh
          exact (hmem b (List.mem_of_mem_head? hbh)).1
        · intro hfin j hj0 hjlen hjm
          simp only [List.length_cons] at hfin
          by_cases hji : j = i0
          · exact Or.inl (by rw [hji]; exact List.mem_cons_self _ _)
          · by_cases hje : j ≤ min lines.length (i0 + 3)
            · exact Or.inr ⟨i0, List.mem_cons_self _ _, by omega, hje⟩
            · rcases hcomp (by omega) j (by omega) hjlen hjm with h1 | ⟨m, hm, hm2, hm3⟩
              · exact Or.inl (List.mem_cons_of_mem _ h1)
              · exact Or.inr ⟨m, List.mem_cons_of_mem _ hm, hm2, hm3⟩
      next hmiss =>
        obtain ⟨is, hb, ht, hbud, hmem, hch, hcomp⟩ :=
          ih (i0 + 1) total (by omega) htl
        refine ⟨is, hb, ht, hbud, ?_, hch, ?_⟩
        · intro j hj
          obtain ⟨hj1, hj2, hj3⟩ := hmem j hj
          exact ⟨by omega, hj2, hj3⟩
        · intro hfin j hj0 hjlen hjm
          by_cases hji : j = i0
          · rw [hji] at hjm
            exact absurd hjm hmiss
          · exact hcomp hfin j (by omega) hjlen hjm
    next hcond =>
      simp only [Bool.and_eq_true, decide_eq_true_eq, not_and, not_lt] at hcond
      refine ⟨[], by simp, by simp, by simpa using htl, by simp, by simp, ?_⟩
      intro hfin j hj0 hjlen _
      by_cases hi0 : i0 < lines.length
      · have := hcond hi0
        simp only [List.length_nil] at hfin
        omega
      · omega

theorem mem_insertFileDesc_self (x : String × String) :
    ∀ l, x ∈ insertFileDesc x l := by
  intro l
  induction l with
  | nil => simp [insertFileDesc]
  | cons y ys ih =>
    unfold insertFileDesc
    split
    · exact List.mem_cons_self _ _
    · exact List.mem_cons_of_mem _ ih

theorem mem_insertFileDesc_of_mem (x z : String × String) :
    ∀ l, z ∈ l → z ∈ insertFileDesc x l := by
  intro l
  induction l with
  | nil => intro h; cases h
  | cons y ys ih =>
    intro hz
    unfold insertFileDesc
    split
    · exact List.mem_cons_of_mem _ hz
    · rcases List.mem_cons.mp hz with h1 | h2
      · rw [h1]
        exact List.mem_cons_self _ _
      · exact List.mem_cons_of_mem _ (ih h2)

theorem mem_foldl_insert : ∀ (fs acc : List (String × String)) (z : String × String),
    z ∈ acc ∨ z ∈ fs → z ∈ fs.foldl (fun acc x => insertFileDesc x acc) acc := by
  intro fs
  induction fs with
  | nil =>
    intro acc z h
    rcases h with h | h
    · exact h
    · cases h
  | cons f fs ih =>
    intro acc z h
    simp only [List.foldl_cons]
    refine ih _ z ?_
    rcases h with h | h
    · exact Or.inl (mem_insertFileDesc_of_mem f z acc h)
    · rcases List.mem_cons.mp h with h1 | h2
      · rw [h1]
        exact Or.inl (mem_insertFileDesc_self f acc)
      · exact Or.inr h2

theorem mem_foldl_insert_rev : ∀ (fs acc : List (String × String)) (z : String × String),
    z ∈ fs.foldl (fun acc x => insertFileDesc x acc) acc → z ∈ acc ∨ z ∈ fs := by
  intro fs
  induction fs with
  | nil => intro acc z h; exact Or.inl h
  | cons f fs ih =>
    intro acc z h
    simp only [List.foldl_cons] at h
    rcases ih _ z h with h1 | h2
    · rcases insertFileDesc_mem f acc z h1 with h3 | h4
      · exact Or.inr (h3 ▸ List.mem_cons_self _ _)
      · exact Or.inl h4
    · exact Or.inr (List.mem_cons_of_mem _ h2)

/-- The stable sort neither adds nor removes entries. -/
theorem mem_sortFilesDesc (l : List (String × String)) (z : String × String) :
    z ∈ sortFilesDesc l ↔ z ∈ l := by
  constructor
  · intro h
    rcases mem_foldl_insert_rev l [] z h with h1 | h2
    · cases h1
    · exact h2
  · intro h
    exact mem_foldl_insert l [] z (Or.inr h)

/-- Every entry of a `searchGo` result comes from a scanned file, and its
blocks are exactly the joined context windows of a non-empty list of matching
line indices of that file, each past the previous window. -/
theorem searchGo_entry_windows (qL : List Char) (limit : Nat) :
    ∀ fs total, total ≤ limit → ∀ pr ∈ searchGo qL limit fs total,
      ∃ f, f ∈ fs ∧ pr.1 = String.mk (stripMdName f.1.data) ∧
        ∃ is : List Nat, is ≠ [] ∧
          pr.2 = is.map (fun i => joinNl (contextWindow (splitNl f.2) i)) ∧
          (∀ j ∈ is, j < (splitNl f.2).length ∧
            lineMatch qL ((splitNl f.2).getD j "") = true) ∧
          is.Chain' (fun a b => min (splitNl f.2).length (a + 3) + 1 ≤ b) := by
  intro fs
  induction fs with
  | nil =>
    intro total h pr hpr
    simp [searchGo] at hpr
  | cons f rest ih =>
    intro total htl pr hpr
    simp only [searchGo] at hpr
    split at hpr
    next => cases hpr
    next hlim =>
      rcases List.mem_append.mp hpr with hl | hr
      · split at hl
        next => cases hl
        next hne =>
          simp only [List.mem_singleton] at hl
          obtain ⟨is, hb, ht, hbud, hmem, hch, -⟩ :=
            scanLines_windows (splitNl f.2) qL limit (splitNl f.2).length 0
              total (by omega) htl
          have hisne : is ≠ [] := by
            intro hnil
            rw [hnil] at hb
            simp only [List.map_nil] at hb
            rw [hb] at hne
            exact hne rfl
          refine ⟨f, List.mem_cons_self _ _, ?_, is, hisne, ?_, ?_, hch⟩
          · rw [hl]
          · rw [hl]
            simp only
            rw [hb, List.map_map]
            rfl
          · intro j hj
            obtain ⟨-, hj2, hj3⟩ := hmem j hj
            exact ⟨hj2, hj3⟩
      · have hbound :
            (scanLines (splitNl f.2) qL limit (splitNl f.2).length 0 total).2
              ≤ limit := by
          obtain ⟨-, h2⟩ :=
            scanLines_total (splitNl f.2) qL limit (splitNl f.2).length 0 total
          exact h2 htl
        obtain ⟨g, hg, h1, h2⟩ := ih _ hbound pr hr
        exact ⟨g, List.mem_cons_of_mem _ hg, h1, h2⟩

/-- A positive remaining budget and any matching line in any scanned file
guarantee a non-empty result: the scan misses no match. -/
theorem searchGo_ne_nil (qL : List Char) (limit : Nat) :
    ∀ fs total, total < limit →
      (∃ f, f ∈ fs ∧ ∃ j, j < (splitNl f.2).length ∧
        lineMatch qL ((splitNl f.2).getD j "") = true) →
      searchGo qL limit fs total ≠ [] := by
  intro fs
  induction fs with
  | nil =>
    rintro total h ⟨f, hf, -⟩
    cases hf
  | cons f rest ih =>
    intro total hlt hex
    simp only [searchGo]
    split
    next h => omega
    next =>
      rcases hex with ⟨g, hg, j, hj, hjm⟩
      obtain ⟨is, hb, ht, hbud, -, -, hcomp⟩ :=
        scanLines_windows (splitNl f.2) qL limit (splitNl f.2).length 0 total
          (by omega) (by omega)
      rcases List.mem_cons.mp hg with hgf | hgr
      · subst hgf
        have hisne : is ≠ [] := by
          intro hnil
          rw [hnil] at hcomp
          rcases hcomp (by simpa using hlt) j (Nat.zero_le j) hj hjm
            with h1 | ⟨m, hm, -⟩
          · cases h1
          · cases hm
        have hbne :
            (scanLines (splitNl g.2) qL limit (splitNl g.2).length 0 total).1
              ≠ [] := by
          rw [hb]
          intro hc
          rcases is with _ | ⟨a, as⟩
          · exact hisne rfl
          · cases hc
        split
        next hemp =>
          exfalso
          cases hbl :
            (scanLines (splitNl g.2) qL limit (splitNl g.2).length 0 total).1 with
          | nil => exact hbne hbl
          | cons b bs =>
            rw [hbl] at hemp
            cases hemp
        next =>
          simp
      · split
        next hemp =>
          have hisnil : is = [] := by
            rcases is with _ | ⟨a, as⟩
            · rfl
            · exfalso
              revert hemp
              rw [hb]
              simp
          have hr2 :
              (scanLines (splitNl f.2) qL limit (splitNl f.2).length 0 total).2
                = total := by
            rw [ht, hisnil]
            rfl
          simp only [List.nil_append]
          rw [hr2]
          exact ih total hlt ⟨g, hgr, j, hj, hjm⟩
        next =>
          simp

/-! ### Lemmas about `write`, `getCwd` and `createPty` lookups -/

theorem find?_mapSet_aux (k : Nat) (v : PtyInstance) :
    ∀ l : List (Nat × PtyInstance), l.any (fun e => e.1 == k) = true →
      ((l.map (fun e => if e.1 == k then (k, v) else e)).find?
          (fun e => e.1 == k)).map Prod.snd = some v := by
  intro l
  induction l with
  | nil => intro h; cases h
  | cons e es ih =>
    intro hany
    by_cases hek : (e.1 == k) = true
    · rw [List.map_cons, if_pos hek]
      simp [List.find?]
    · have hekf : (e.1 == k) = false := Bool.eq_false_iff.mpr hek
      rw [List.map_cons, if_neg hek]
      simp only [List.find?, hekf]
      refine ih ?_
      rw [List.any_cons] at hany
      rcases (Bool.or_eq_true _ _).mp hany with h1 | h2
      · exact absurd h1 hek
      · exact h2

theorem find?_mapSet (l : List (Nat × PtyInstance)) (k : Nat) (v : PtyInstance) :
    ((mapSet l k v).find? (fun e => e.1 == k)).map Prod.snd = some v := by
  cases hany : l.any (fun e => e.1 == k) with
  | true =>
    unfold mapSet
    rw [hany, if_pos rfl]
    exact find?_mapSet_aux k v l hany
  | false =>
    unfold mapSet
    rw [hany, if_neg Bool.false_ne_true]
    have hnone : l.find? (fun e => e.1 == k) = none := by
      rw [List.find?_eq_none]
      intro x hx hxk
      rw [List.any_eq_false] at hany
      exact hany x hx hxk
    rw [List.find?_append, hnone]
    simp [List.find?]

theorem lookupPane_write (s : PtyState) (p : Nat) (data : String)
    (inst : PtyInstance) (h : lookupPane s p = some inst) :
    lookupPane (write s p data) p = some ⟨inst.pid, cdApply inst.cwd data⟩ := by
  unfold write
  rw [h]
  unfold lookupPane
  exact find?_mapSet s.ptys p _

theorem lookupPane_createPty (s : PtyState) (p : Nat) (c : Option String) :
    lookupPane ((createPty s p c true).1) p
      = some ⟨(killPty s p).nextPid, c.getD homeDir⟩ := by
  obtain ⟨hp, -, -⟩ := createPty_state_of_ok s p c
  unfold lookupPane
  rw [hp]
  have hnone : (killPty s p).ptys.find? (fun e => e.1 == p) = none := by
    rw [List.find?_eq_none]
    intro x hx hxk
    rw [killPty_no_key s p x hx] at hxk
    cases hxk
  rw [List.find?_append, hnone]
  simp [List.find?]

theorem liveCount_createPty_self (s : PtyState) (p : Nat) (c : Option String)
    (hWF : PtyWF s) : liveCount ((createPty s p c true).1) p = 1 := by
  obtain ⟨hp, hn, hk⟩ := createPty_state_of_ok s p c
  obtain ⟨w1, w2, w3⟩ := PtyWF_killPty s p hWF
  unfold liveCount
  rw [hp, hk, List.filter_append]
  have hbase : (killPty s p).ptys.filter
      (fun e => e.1 == p && !(decide (e.2.pid ∈ (killPty s p).killed))) = [] := by
    rw [List.filter_eq_nil_iff]
    intro e he
    rw [killPty_no_key s p e he]
    simp
  rw [hbase, List.nil_append]
  have hnotk : (killPty s p).nextPid ∉ (killPty s p).killed := by
    intro hmem
    exact absurd (w3 _ hmem) (lt_irrefl _)
  simp [List.filter, hnotk]

theorem probeAccept_none (plat : Platform) : probeAccept plat none = none := by
  cases plat <;> rfl

/-! ### Decompositions of `formatExchange` for the record-content facts -/

theorem formatExchange_decomp_fence (time : String) (pane : Nat) (ty : ExType)
    (content : String) :
    (formatExchange time pane ty content).data
      = ("### [" ++ time ++ "] Terminal " ++ toString (pane + 1) ++ " - "
          ++ typeName ty ++ "\n" ++ typeLabel ty).data
        ++ ("\n```\n" ++ jsTrimS content ++ "\n```\n").data ++ ("\n" : String).data := by
  have e1 : ("\n```\n\n" : String).data
      = ("\n```\n" : String).data ++ ("\n" : String).data := rfl
  simp only [formatExchange, String.data_append, e1, List.append_assoc,
    List.cons_append, List.nil_append]

theorem formatExchange_decomp_time (time : String) (pane : Nat) (ty : ExType)
    (content : String) :
    (formatExchange time pane ty content).data
      = ("### " : String).data
        ++ ("[" ++ time ++ "] Terminal " ++ toString (pane + 1)).data
        ++ (" - " ++ typeName ty ++ "\n" ++ typeLabel ty ++ "\n```\n"
            ++ jsTrimS content ++ "\n```\n\n").data := by
  have e1 : ("### [" : String).data
      = ("### " : String).data ++ ("[" : String).data := rfl
  simp only [formatExchange, String.data_append, e1, List.append_assoc,
    List.cons_append, List.nil_append]

theorem formatExchange_decomp_label (time : String) (pane : Nat) (ty : ExType)
    (content : String) :
    (formatExchange time pane ty content).data
      = ("### [" ++ time ++ "] Terminal " ++ toString (pane + 1) ++ " - "
          ++ typeName ty ++ "\n").data
        ++ (typeLabel ty).data
        ++ ("\n```\n" ++ jsTrimS content ++ "\n```\n\n").data := by
  simp only [formatExchange, String.data_append, List.append_assoc]

theorem createPty_killed_eq (s : PtyState) (p : Nat) (c : Option String) (b : Bool) :
    ((createPty s p c b).1).killed = (killPty s p).killed := by
  cases b with
  | true => exact (createPty_state_of_ok s p c).2.2
  | false => rfl

/-! ### Claim theorems -/

/-- C1: for every paneId, two consecutive `createPty` calls (the second
spawning successfully) leave exactly one live session registered for that id;
the previously registered session's process is killed first, and the
at-most-one-session-per-paneId invariant is preserved. -/
theorem claim_C1 (s : PtyState) (p : Nat) (c1 c2 : Option String) (b1 : Bool)
    (hWF : PtyWF s) :
    liveCount ((createPty ((createPty s p c1 b1).1) p c2 true).1) p = 1 ∧
    (∀ inst, lookupPane s p = some inst →
      inst.pid ∈ ((createPty ((createPty s p c1 b1).1) p c2 true).1).killed) ∧
    PtyWF ((createPty ((createPty s p c1 b1).1) p c2 true).1) ∧
    (∀ q, liveCount ((createPty ((createPty s p c1 b1).1) p c2 true).1) q ≤ 1) := by
  have hWF1 := PtyWF_createPty s p c1 b1 hWF
  have hWF2 := PtyWF_createPty ((createPty s p c1 b1).1) p c2 true hWF1
  refine ⟨liveCount_createPty_self ((createPty s p c1 b1).1) p c2 hWF1, ?_, hWF2, ?_⟩
  · intro inst hinst
    have h1 : inst.pid ∈ (killPty s p).killed := killPty_kills s p inst hinst
    have h2 : inst.pid ∈ ((createPty s p c1 b1).1).killed := by
      rw [createPty_killed_eq]
      exact h1
    have h3 : inst.pid ∈ (killPty ((createPty s p c1 b1).1) p).killed :=
      killPty_killed_mono _ p _ h2
    rw [createPty_killed_eq]
    exact h3
  · intro q
    exact liveCount_le_one _ q hWF2.1

/-- Witness for C1 at a concrete state. -/
theorem claim_C1_witness :
    PtyWF initPtyState ∧
    liveCount ((createPty ((createPty initPtyState 0 (some "/a") true).1)
      0 none true).1) 0 = 1 :=
  ⟨by simp [PtyWF, initPtyState],
    (claim_C1 initPtyState 0 (some "/a") none true
      (by simp [PtyWF, initPtyState])).1⟩

/-- C2: an `appendExchange` with an ephemeral (`temp-`-prefixed) project id is
silently discarded (the state is unchanged), and no disk write of any history
run (appends and flushes in any order, with any flush environments) ever
touches an ephemeral project id. -/
theorem claim_C2 :
    (∀ (s : HistState) (pid : String) (pane : Nat) (ty : ExType)
      (time content : String), strStarts pid "temp-" = true →
        appendExchange s pid pane ty time content = s) ∧
    (∀ (ops : List HOp) (d : DiskEff), d ∈ (runOps initHist ops).2 →
      strStarts d.pid "temp-" = false) := by
  constructor
  · intro s pid pane ty time content h
    refine appendExchange_skip s pid pane ty time content ?_
    rw [h]
    simp
  · intro ops d hd
    have := runOps_no_temp ops initHist goodBufs_init d hd
    exact (Bool.or_eq_false_iff.mp this).2

/-- Witness for C2: a concrete discarded ephemeral append, and a concrete
disk write of a run, whose project id is not ephemeral. -/
theorem claim_C2_witness :
    appendExchange initHist "temp-1234" 0 ExType.input "9:05 AM" "hi" = initHist ∧
    (DiskEff.ensureDir "proj" ∈ (runOps initHist
      [HOp.append "proj" 0 ExType.input "9:05 AM" "hi",
       HOp.doFlush (fun _ => ⟨true, false, none, true, true⟩)
         "2024-01-01" "Monday, January 1, 2024" "9:05 AM"]).2 ∧
      strStarts (DiskEff.ensureDir "proj").pid "temp-" = false) := by
  refine ⟨claim_C2.1 initHist "temp-1234" 0 ExType.input "9:05 AM" "hi"
    (by decide), ⟨?_, ?_⟩⟩
  · decide
  · exact claim_C2.2
      [HOp.append "proj" 0 ExType.input "9:05 AM" "hi",
       HOp.doFlush (fun _ => ⟨true, false, none, true, true⟩)
         "2024-01-01" "Monday, January 1, 2024" "9:05 AM"]
      (DiskEff.ensureDir "proj") (by decide)

/-- C5: on flush of a non-empty queue, when the day file is missing or its
last write is more than 30 minutes old (or unreadable), exactly one session
header is prepended before the queued records; when the day file exists and
was modified within 30 minutes, the appended content is exactly the queued
records with no header. -/
theorem claim_C5 (s : HistState) (env : String → FlushEnvEntry)
    (today dateStr timeStr pid : String) (buf : List String)
    (hmem : (pid, buf) ∈ s.writeBuffers) (hne : buf.isEmpty = false)
    (hmk : (env pid).mkdirOk = true) (hap : (env pid).appendOk = true) :
    (((env pid).fileExists = false ∨ (env pid).statAge = none ∨
        (∃ a, (env pid).statAge = some a ∧ a > thirtyMinutesMs)) →
      DiskEff.append pid (today ++ ".md")
        (getSessionHeader dateStr timeStr ++ String.join buf)
        ∈ (flush s env today dateStr timeStr).2) ∧
    (((env pid).fileExists = true ∧
        (∃ a, (env pid).statAge = some a ∧ a ≤ thirtyMinutesMs)) →
      DiskEff.append pid (today ++ ".md") (String.join buf)
        ∈ (flush s env today dateStr timeStr).2) := by
  have hbase := flush_append_mem s env today dateStr timeStr pid buf hmem hne hmk hap
  constructor
  · intro hcase
    have hcond : (!(env pid).fileExists || isNewSession (env pid).statAge) = true := by
      rcases hcase with h1 | h2 | ⟨a, ha, hgt⟩
      · rw [h1]
        rfl
      · rw [h2]
        simp [isNewSession]
      · rw [ha]
        simp only [isNewSession, Bool.or_eq_true, decide_eq_true_eq]
        right
        exact hgt
    rw [hcond, if_pos rfl] at hbase
    exact hbase
  · rintro ⟨hfe, a, ha, hle⟩
    have hcond : (!(env pid).fileExists || isNewSession (env pid).statAge) = false := by
      rw [hfe, ha]
      simp only [isNewSession, Bool.not_true, Bool.false_or, decide_eq_false_iff_not]
      omega
    rw [hcond, if_neg Bool.false_ne_true] at hbase
    have hnil : ("" : String) ++ String.join buf = String.join buf := rfl
    rw [hnil] at hbase
    exact hbase

/-- Witness for C5 at a concrete buffer and environment (stale file: header
prepended; fresh file: no header). -/
theorem claim_C5_witness :
    (("proj", ["r1"]) ∈ (⟨[("proj", ["r1"])]⟩ : HistState).writeBuffers ∧
      DiskEff.append "proj" "2024-01-01.md"
        (getSessionHeader "D" "T" ++ String.join ["r1"])
        ∈ (flush ⟨[("proj", ["r1"])]⟩
            (fun _ => ⟨true, true, some 1800001, true, true⟩)
            "2024-01-01" "D" "T").2) ∧
    DiskEff.append "proj" "2024-01-01.md" (String.join ["r1"])
      ∈ (flush ⟨[("proj", ["r1"])]⟩
          (fun _ => ⟨true, true, some 1800000, true, true⟩)
          "2024-01-01" "D" "T").2 := by
  refine ⟨⟨by decide, ?_⟩, ?_⟩
  · exact (claim_C5 ⟨[("proj", ["r1"])]⟩
      (fun _ => ⟨true, true, some 1800001, true, true⟩) "2024-01-01" "D" "T"
      "proj" ["r1"] (by decide) (by decide) (by decide) (by decide)).1
      (Or.inr (Or.inr ⟨1800001, rfl, by decide⟩))
  · exact (claim_C5 ⟨[("proj", ["r1"])]⟩
      (fun _ => ⟨true, true, some 1800000, true, true⟩) "2024-01-01" "D" "T"
      "proj" ["r1"] (by decide) (by decide) (by decide) (by decide)).2
      ⟨rfl, 1800000, rfl, by decide⟩

/-- C6: `getCwd` returns null exactly when no session exists for the pane; it
is a total function (never throws); when the OS probe fails or its output is
rejected it returns the tracked working directory with the state unchanged;
and at creation time the tracked directory is seeded to the `cwd` argument of
`createPty`, or the home directory if none was given. -/
theorem claim_C6 (plat : Platform) (probe : Option String) (s : PtyState)
    (p : Nat) :
    ((getCwd plat probe s p).1 = none ↔ lookupPane s p = none) ∧
    (∀ inst, lookupPane s p = some inst →
      getCwd plat none s p = (some inst.cwd, s)) ∧
    (∀ inst, lookupPane s p = some inst → probeAccept plat probe = none →
      getCwd plat probe s p = (some inst.cwd, s)) ∧
    (∀ c, (getCwd plat none ((createPty s p c true).1) p).1
      = some (c.getD homeDir)) := by
  refine ⟨?_, ?_, ?_, ?_⟩
  · unfold getCwd
    cases hl : lookupPane s p with
    | none => simp
    | some inst =>
      simp only
      cases probeAccept plat probe <;> simp
  · intro inst hinst
    unfold getCwd
    rw [hinst, probeAccept_none]
  · intro inst hinst hacc
    unfold getCwd
    rw [hinst, hacc]
  · intro c
    unfold getCwd
    rw [lookupPane_createPty, probeAccept_none]

/-- Witness for C6: a pane created at `/w` whose probe throws still reports
`/w`, and a pane created with no cwd reports the home directory. -/
theorem claim_C6_witness :
    lookupPane ((createPty initPtyState 0 (some "/w") true).1) 0
      = some ⟨0, "/w"⟩ ∧
    getCwd Platform.darwin none ((createPty initPtyState 0 (some "/w") true).1) 0
      = (some "/w", (createPty initPtyState 0 (some "/w") true).1) ∧
    (getCwd Platform.linux none ((createPty initPtyState 1 none true).1) 1).1
      = some homeDir := by
  refine ⟨by decide, ?_, ?_⟩
  · exact (claim_C6 Platform.darwin none
      ((createPty initPtyState 0 (some "/w") true).1) 0).2.1 ⟨0, "/w"⟩ (by decide)
  · exact (claim_C6 Platform.linux none initPtyState 1).2.2.2 none

/-- C7: `write` updates the tracked working directory of a pane whose input
matches the leading `cd` pattern, resolving absolute, `~`, `~/`-relative and
relative targets against the current tracked value; in particular after
`createPty(0, "/tmp/proj")` and `write(0, "cd sub\n")`, `getCwd(0)` with no
completed OS probe yields `/tmp/proj/sub`. -/
theorem claim_C7 :
    (∀ (s : PtyState) (p : Nat) (data : String) (inst : PtyInstance),
      lookupPane s p = some inst →
      lookupPane (write s p data) p = some ⟨inst.pid, cdApply inst.cwd data⟩) ∧
    cdApply "/tmp/proj" "cd sub\n" = "/tmp/proj/sub" ∧
    cdApply "/data/x" "cd /a/b\n" = "/a/b" ∧
    cdApply "/data/x" "cd ~\n" = homeDir ∧
    cdApply "/data/x" "cd ~/sub\n" = pathJoin homeDir "sub" ∧
    (getCwd Platform.darwin none
      (write ((createPty initPtyState 0 (some "/tmp/proj") true).1) 0 "cd sub\n")
      0).1 = some "/tmp/proj/sub" := by
  exact ⟨lookupPane_write, rfl, rfl, rfl, rfl, rfl⟩

/-- Witness for C7: the tracked-cwd update applied to a concrete pane. -/
theorem claim_C7_witness :
    lookupPane ((createPty initPtyState 0 (some "/tmp/proj") true).1) 0
      = some ⟨0, "/tmp/proj"⟩ ∧
    lookupPane (write ((createPty initPtyState 0 (some "/tmp/proj") true).1)
      0 "cd sub\n") 0 = some ⟨0, "/tmp/proj/sub"⟩ :=
  ⟨by decide,
    claim_C7.1 ((createPty initPtyState 0 (some "/tmp/proj") true).1) 0
      "cd sub\n" ⟨0, "/tmp/proj"⟩ (by decide)⟩

/-- C8: `getGitStatus` is total (never throws) and returns null exactly when
the pane has no session; whenever the step-1 work-tree probe fails the whole
call degrades to `{isGitRepo: false}` regardless of every other probe (so a
second call with the directory removed behaves identically); when step 1
succeeds, branch, ahead/behind and dirty each degrade independently to their
fallbacks `HEAD`, 0/0 and 0. -/
theorem claim_C8 (plat : Platform) (pr : Option String) (g : GitProbes)
    (s : PtyState) (p : Nat) :
    ((getGitStatus plat pr g s p).1 = none ↔ lookupPane s p = none) ∧
    (lookupPane s p ≠ none → g.workTree = false →
      (getGitStatus plat pr g s p).1 = some notGitRepo) ∧
    (lookupPane s p ≠ none → g.workTree = true →
      ∃ st, (getGitStatus plat pr g s p).1 = some st ∧ st.isGitRepo = true ∧
        (g.branch = none → st.branch = some "HEAD") ∧
        (g.tracking = none → st.ahead = some 0 ∧ st.behind = some 0) ∧
        (g.status = none → st.dirty = some 0)) := by
  refine ⟨?_, ?_, ?_⟩
  · unfold getGitStatus
    cases hl : lookupPane s p with
    | none => simp
    | some inst =>
      simp only
      split <;> simp
  · intro hne hwt
    cases hl : lookupPane s p with
    | none => exact absurd hl hne
    | some inst =>
      unfold getGitStatus
      rw [hl, hwt]
      simp
  · intro hne hwt
    cases hl : lookupPane s p with
    | none => exact absurd hl hne
    | some inst =>
      unfold getGitStatus
      rw [hl, hwt]
      simp only [Bool.not_true, Bool.false_eq_true, if_false]
      refine ⟨_, rfl, rfl, ?_, ?_, ?_⟩
      · intro hb
        rw [hb]
      · intro ht
        rw [ht]
        exact ⟨rfl, rfl⟩
      · intro hs
        rw [hs]

/-- Witness for C8: a live pane with a failed work-tree probe yields
`{isGitRepo: false}`, and with a succeeding work-tree probe but failed
branch/tracking/status probes yields the fallback fields. -/
theorem claim_C8_witness :
    lookupPane ((createPty initPtyState 0 (some "/w") true).1) 0 ≠ none ∧
    (getGitStatus Platform.darwin none ⟨false, none, none, none⟩
      ((createPty initPtyState 0 (some "/w") true).1) 0).1 = some notGitRepo ∧
    ∃ st, (getGitStatus Platform.darwin none ⟨true, none, none, none⟩
        ((createPty initPtyState 0 (some "/w") true).1) 0).1 = some st ∧
      st.isGitRepo = true ∧ st.branch = some "HEAD" ∧
      st.ahead = some 0 ∧ st.behind = some 0 ∧ st.dirty = some 0 := by
  refine ⟨by decide, ?_, ?_⟩
  · exact (claim_C8 Platform.darwin none ⟨false, none, none, none⟩
      ((createPty initPtyState 0 (some "/w") true).1) 0).2.1 (by decide) rfl
  · obtain ⟨st, h1, h2, h3, h4, h5⟩ := (claim_C8 Platform.darwin none
      ⟨true, none, none, none⟩
      ((createPty initPtyState 0 (some "/w") true).1) 0).2.2 (by decide) rfl
    exact ⟨st, h1, h2, h3 rfl, (h4 rfl).1, (h4 rfl).2, h5 rfl⟩

/-- C4 counterexample: a dangling ESC byte matches none of the seven removal
patterns, so the normalizer's output can contain the escape byte 0x1B,
contradicting the claim that the output is always free of escape bytes. -/
theorem claim_C4_counterexample :
    stripAnsi "\x1B" = "\x1B" ∧ escChar ∈ (stripAnsi "\x1B").data := by
  exact ⟨rfl, by decide⟩

/-- C4 (amended): the normalizer's output never contains a carriage return;
it only deletes characters (the output is a sublist of the input), so every
kept character appears verbatim and in order; input containing no ESC byte
and no carriage return, newlines included, passes through unchanged; and
recognized escape sequences are removed, as on a concrete input with CSI,
OSC and carriage-return bytes.  A bare ESC byte that begins no recognized
pattern may remain in the output. -/
theorem claim_C4 (s : String) :
    '\r' ∉ (stripAnsi s).data ∧
    ((stripAnsi s).data.Sublist s.data) ∧
    ((escChar ∉ s.data ∧ '\r' ∉ s.data) → stripAnsi s = s) ∧
    stripAnsi "a\x1B[31mb\x1B]0;title\x07c\r\nd" = "abc\nd" := by
  refine ⟨stripAnsiL_no_cr s.data, stripAnsiL_sublist s.data, ?_, by decide⟩
  rintro ⟨h1, h2⟩
  show String.mk (stripAnsiL s.data) = s
  rw [stripAnsiL_id s.data h1 h2]

/-- Witness for C4: a normal two-line text passes through unchanged. -/
theorem claim_C4_witness :
    (escChar ∉ ("x\ny" : String).data ∧ '\r' ∉ ("x\ny" : String).data) ∧
    stripAnsi "x\ny" = "x\ny" :=
  ⟨⟨by decide, by decide⟩, (claim_C4 "x\ny").2.2.1 ⟨by decide, by decide⟩⟩

/-- C3 counterexample: the emitted window is `slice(i-2, i+3)`, i.e. two
lines before and two lines after the match (line `e`, the third line after
the first match, is absent), and the second block shares line `d` with the
first, so emitted blocks can overlap. -/
theorem claim_C3_counterexample :
    search [("2024-01-01.md", "a\nb\nmat\nc\nd\ne\nmat\nf\ng")] "mat" 50
      = [("2024-01-01", ["a\nb\nmat\nc\nd", "d\ne\nmat\nf\ng"])] ∧
    "e" ∉ splitNl "a\nb\nmat\nc\nd" ∧
    "d" ∈ splitNl "a\nb\nmat\nc\nd" ∧ "d" ∈ splitNl "d\ne\nmat\nf\ng" := by
  exact ⟨rfl, by decide, by decide, by decide⟩

/-- C3 (amended): `search` emits at most `limit` context blocks in total
across all files (default limit 50); result entries follow the
date-descending order of the sorted `.md` file list; every result entry
comes from an `.md` file of the directory and its blocks are exactly the
newline-joins of the context windows of a non-empty list of matching line
indices of that file - each window being the slice from two lines before the
matching line to two lines after it, clipped at the file boundaries
(`contextWindow`) - where each later match index lies at least one past the
previous window end (the scan pointer advances past the window, so no later
matched line falls inside an earlier window, though the leading context of a
later block may repeat trailing lines of the previous one); and the scan
misses nothing: with a positive budget, any matching line in any `.md` file
makes the result non-empty. -/
theorem claim_C3 (files : List (String × String)) (query : String) (limit : Nat) :
    totalBlocks (search files query limit) ≤ limit ∧
    searchDefaultLimit = 50 ∧
    (sortFilesDesc (files.filter (fun f => strEnds f.1 ".md"))).Pairwise
      (fun a b => strLt a.1 b.1 = false) ∧
    ((search files query limit).map Prod.fst).Sublist
      ((sortFilesDesc (files.filter (fun f => strEnds f.1 ".md"))).map
        (fun f => String.mk (stripMdName f.1.data))) ∧
    (∀ pr ∈ search files query limit,
      ∃ f, (f ∈ files ∧ strEnds f.1 ".md" = true) ∧
        pr.1 = String.mk (stripMdName f.1.data) ∧
        ∃ is : List Nat, is ≠ [] ∧
          pr.2 = is.map (fun i => joinNl (contextWindow (splitNl f.2) i)) ∧
          (∀ j ∈ is, j < (splitNl f.2).length ∧
            lineMatch (query.data.map Char.toLower)
              ((splitNl f.2).getD j "") = true) ∧
          is.Chain' (fun a b => min (splitNl f.2).length (a + 3) + 1 ≤ b)) ∧
    (0 < limit →
      (∃ f, f ∈ files ∧ strEnds f.1 ".md" = true ∧
        ∃ j, j < (splitNl f.2).length ∧
          lineMatch (query.data.map Char.toLower)
            ((splitNl f.2).getD j "") = true) →
      search files query limit ≠ []) := by
  refine ⟨?_, rfl, sortFilesDesc_pairwise _, ?_, ?_, ?_⟩
  · have h := searchGo_budget (query.data.map Char.toLower) limit
      (sortFilesDesc (files.filter (fun f => strEnds f.1 ".md"))) 0 (Nat.zero_le _)
    simpa [search] using h
  · exact searchGo_fst_sublist (query.data.map Char.toLower) limit
      (sortFilesDesc (files.filter (fun f => strEnds f.1 ".md"))) 0
  · intro pr hpr
    have hpr2 : pr ∈ searchGo (query.data.map Char.toLower) limit
        (sortFilesDesc (files.filter (fun f => strEnds f.1 ".md"))) 0 := by
      simpa [search] using hpr
    obtain ⟨f, hf, h1, h2⟩ := searchGo_entry_windows (query.data.map Char.toLower)
      limit (sortFilesDesc (files.filter (fun f => strEnds f.1 ".md"))) 0
      (Nat.zero_le _) pr hpr2
    have hfm := (mem_sortFilesDesc (files.filter (fun f => strEnds f.1 ".md")) f).mp hf
    have hfr := List.mem_filter.mp hfm
    exact ⟨f, ⟨hfr.1, hfr.2⟩, h1, h2⟩
  · rintro hlim ⟨f, hfmem, hfmd, j, hj, hjm⟩
    have hne := searchGo_ne_nil (query.data.map Char.toLower) limit
      (sortFilesDesc (files.filter (fun g => strEnds g.1 ".md"))) 0 hlim
      ⟨f, (mem_sortFilesDesc (files.filter (fun g => strEnds g.1 ".md")) f).mpr
        (List.mem_filter.mpr ⟨hfmem, hfmd⟩), j, hj, hjm⟩
    intro hc
    refine hne ?_
    simpa [search] using hc

/-- Witness for C3: the window characterization and the non-empty-result
conjunct applied to a concrete one-file search. -/
theorem claim_C3_witness :
    ("2024-01-02", ["mat"]) ∈ search [("2024-01-02.md", "mat")] "MAT" 3 ∧
    (∃ f, (f ∈ [(("2024-01-02.md", "mat") : String × String)] ∧
        strEnds f.1 ".md" = true) ∧
      ("2024-01-02" : String) = String.mk (stripMdName f.1.data) ∧
      ∃ is : List Nat, is ≠ [] ∧
        (["mat"] : List String)
          = is.map (fun i => joinNl (contextWindow (splitNl f.2) i)) ∧
        (∀ j ∈ is, j < (splitNl f.2).length ∧
          lineMatch (("MAT" : String).data.map Char.toLower)
            ((splitNl f.2).getD j "") = true) ∧
        is.Chain' (fun a b => min (splitNl f.2).length (a + 3) + 1 ≤ b)) ∧
    search [("2024-01-02.md", "mat")] "MAT" 3 ≠ [] := by
  refine ⟨by decide, ?_, ?_⟩
  · exact (claim_C3 [("2024-01-02.md", "mat")] "MAT" 3).2.2.2.2.1
      ("2024-01-02", ["mat"]) (by decide)
  · exact (claim_C3 [("2024-01-02.md", "mat")] "MAT" 3).2.2.2.2.2 (by decide)
      ⟨("2024-01-02.md", "mat"), by decide, by decide, 0, by decide, by decide⟩

/-- C9 counterexample: `formatExchange` trims the submitted content, so the
fenced block of the record for content `"x "` holds `"x"`, and the submitted
content does not occur verbatim between the fences (nor anywhere in the
record). -/
theorem claim_C9_counterexample :
    formatExchange "9:05 AM" 0 ExType.input "x "
      = "### [9:05 AM] Terminal 1 - input\n**Input:**\n```\nx\n```\n\n" ∧
    ¬ (("\n```\nx \n```\n" : String).data <:+:
        (formatExchange "9:05 AM" 0 ExType.input "x ").data) := by
  exact ⟨rfl, by decide⟩

/-- C9 (amended): `appendExchange` with a non-ephemeral project id performs
no disk write; the record it enqueues is appended to that project's queue and
contains, verbatim, the fenced block holding the submitted content trimmed of
leading and trailing whitespace, the bracketed local time label with the pane
label `Terminal (paneId+1)`, and the type label. -/
theorem claim_C9 (s : HistState) (pid : String) (pane : Nat) (ty : ExType)
    (time content : String)
    (hguard : (pid == "" || strStarts pid "temp-") = false) :
    (runOps s [HOp.append pid pane ty time content]).2 = [] ∧
    bufGet (appendExchange s pid pane ty time content) pid
      = some ((bufGet s pid).getD [] ++ [formatExchange time pane ty content]) ∧
    ("\n```\n" ++ jsTrimS content ++ "\n```\n").data <:+:
      (formatExchange time pane ty content).data ∧
    ("[" ++ time ++ "] Terminal " ++ toString (pane + 1)).data <:+:
      (formatExchange time pane ty content).data ∧
    (typeLabel ty).data <:+: (formatExchange time pane ty content).data := by
  refine ⟨rfl, bufGet_appendExchange s pid pane ty time content hguard, ?_, ?_, ?_⟩
  · rw [formatExchange_decomp_fence time pane ty content]
    exact ⟨_, _, rfl⟩
  · rw [formatExchange_decomp_time time pane ty content]
    exact ⟨_, _, rfl⟩
  · rw [formatExchange_decomp_label time pane ty content]
    exact ⟨_, _, rfl⟩

/-- Witness for C9 at a concrete exchange. -/
theorem claim_C9_witness :
    bufGet (appendExchange initHist "proj" 0 ExType.input "9:05 AM" " hi ") "proj"
      = some [formatExchange "9:05 AM" 0 ExType.input " hi "] ∧
    ("\n```\n" ++ jsTrimS " hi " ++ "\n```\n").data <:+:
      (formatExchange "9:05 AM" 0 ExType.input " hi ").data :=
  ⟨(claim_C9 initHist "proj" 0 ExType.input "9:05 AM" " hi " (by decide)).2.1,
    (claim_C9 initHist "proj" 0 ExType.input "9:05 AM" " hi " (by decide)).2.2.1⟩

/-- C10: after any `flush` the write-buffer map is empty, for every flush
environment including ones where the day-file append or index update failed
(failed projects' queues are discarded, not retried); a flush whose queues
are all empty performs no disk writes; and a second flush immediately after
any flush performs no disk writes at all. -/
theorem claim_C10 (s : HistState) (env env2 : String → FlushEnvEntry)
    (today dateStr timeStr today2 dateStr2 timeStr2 : String) :
    (flush s env today dateStr timeStr).1.writeBuffers = [] ∧
    ((∀ pr ∈ s.writeBuffers, pr.2 = []) →
      (flush s env today dateStr timeStr).2 = []) ∧
    (flush ((flush s env today dateStr timeStr).1) env2 today2 dateStr2
      timeStr2).2 = [] := by
  refine ⟨rfl, flush_no_writes_of_empty s env today dateStr timeStr, ?_⟩
  rw [flush_clears]
  rfl

/-- Witness for C10: a failing flush still clears the buffers, and the
follow-up flush writes nothing. -/
theorem claim_C10_witness :
    (flush ⟨[("proj", ["r1"])]⟩ (fun _ => ⟨true, true, none, false, false⟩)
      "2024-01-01" "D" "T").1.writeBuffers = [] ∧
    (∀ pr ∈ (⟨[("proj", [])]⟩ : HistState).writeBuffers, pr.2 = []) ∧
    (flush ⟨[("proj", [])]⟩ (fun _ => ⟨true, true, none, true, true⟩)
      "2024-01-01" "D" "T").2 = [] := by
  refine ⟨(claim_C10 ⟨[("proj", ["r1"])]⟩
      (fun _ => ⟨true, true, none, false, false⟩)
      (fun _ => ⟨true, true, none, false, false⟩)
      "2024-01-01" "D" "T" "2024-01-01" "D" "T").1, by decide, ?_⟩
  exact (claim_C10 ⟨[("proj", [])]⟩ (fun _ => ⟨true, true, none, true, true⟩)
      (fun _ => ⟨true, true, none, true, true⟩)
      "2024-01-01" "D" "T" "2024-01-01" "D" "T").2.1 (by decide)

end QuadClaude
